import Mathlib

set_option linter.unusedSectionVars false

/-!
Verification of the `fast-quantiles` quantile-summary library.

The development shallowly embeds the Rust sources:
* `src/modified_gk/sample.rs`            → `Sample`
* `src/modified_gk/samples_compressor.rs`→ `SamplesCompressor`
* `src/modified_gk/summary.rs`           → `Summary` (insert, compress, merge, query)
* `src/lib.rs`                           → `quantileToRank`
* `src/gk/summary.rs`                    → `GK.Summary` (baseline)

Machine integers (`u64`, `usize`) are modelled as `ℕ` (no operation here can
overflow 64 bits on the inputs the library accepts, and Rust subtractions are
only executed when the source guards them, which the embedding mirrors), and
`f64` epsilons/quantiles as `ℚ`.  Panics (`assert!`) are modelled as `Except`
or `Option` failures.
-/

namespace FastQuantiles

variable {α : Type}

/-- One retained sample `(value, g, delta)`, from `modified_gk/sample.rs`.
Ordering in the source compares only `value`; the embedding compares values
explicitly wherever the source compares samples. -/
structure Sample (α : Type) where
  value : α
  g : ℕ
  delta : ℕ
deriving DecidableEq, Repr

/-- `Sample::exact`: a sample representing exactly one observed value. -/
def Sample.exact (v : α) : Sample α := ⟨v, 1, 0⟩

/-- The modified-GK summary, from `modified_gk/summary.rs`:
stored samples in ascending value order (the `BTree` is modelled by its sorted
iteration sequence), the `max_samples` compression bound, the target error
`max_expected_error` and the number `len` of values inserted so far. -/
structure Summary (α : Type) where
  samples : List (Sample α)
  maxSamples : ℕ
  maxExpectedError : ℚ
  len : ℕ
deriving DecidableEq, Repr

/-- `⌊2·eps·len⌋` as a natural number: the cap on `g + delta`. -/
def capAt (eps : ℚ) (len : ℕ) : ℕ := (⌊2 * eps * (len : ℚ)⌋).toNat

/-- `Summary::max_g_delta`. -/
def Summary.maxGDelta (s : Summary α) : ℕ := capAt s.maxExpectedError s.len

/-- `Summary::new`: empty summary; `max_samples = 5·⌈1/eps⌉`. -/
def Summary.new (eps : ℚ) : Summary α :=
  { samples := []
    maxSamples := 5 * (⌈(1 : ℚ) / eps⌉).toNat
    maxExpectedError := eps
    len := 0 }

/-- The streaming compressor, from `modified_gk/samples_compressor.rs`. -/
structure SamplesCompressor (α : Type) where
  maxGDelta : ℕ
  compressedSamples : List (Sample α)
  blockTail : Option (Sample α)
deriving DecidableEq, Repr

/-- `SamplesCompressor::new` (the vector capacity argument only preallocates). -/
def SamplesCompressor.new (maxGDelta : ℕ) : SamplesCompressor α :=
  ⟨maxGDelta, [], none⟩

/-- `SamplesCompressor::push`. -/
def SamplesCompressor.push (c : SamplesCompressor α) (sample : Sample α) :
    SamplesCompressor α :=
  match c.blockTail with
  | some tailSample =>
    if tailSample.g + sample.g + sample.delta ≤ c.maxGDelta then
      { c with blockTail := some { sample with g := sample.g + tailSample.g } }
    else
      { c with compressedSamples := c.compressedSamples ++ [tailSample]
               blockTail := some sample }
  | none =>
    if c.compressedSamples.length = 0 then
      { c with compressedSamples := [sample] }
    else
      { c with blockTail := some sample }

/-- Push a whole list of samples in order. -/
def SamplesCompressor.pushList (c : SamplesCompressor α) (l : List (Sample α)) :
    SamplesCompressor α :=
  l.foldl SamplesCompressor.push c

/-- `SamplesCompressor::into_samples`. -/
def SamplesCompressor.intoSamples (c : SamplesCompressor α) : List (Sample α) :=
  c.compressedSamples ++ c.blockTail.toList

/-- Run a fresh compressor with cap `cap` over `l`, as `Summary::compress` does. -/
def compressSamples (cap : ℕ) (l : List (Sample α)) : List (Sample α) :=
  ((SamplesCompressor.new cap).pushList l).intoSamples

/-- `Summary::compress`. -/
def Summary.compress (s : Summary α) : Summary α :=
  { s with samples := compressSamples s.maxGDelta s.samples }

variable [LinearOrder α]

/-- The non-minimum part of `Summary::insert_one`: walk the samples past the
values `≤ v`; on the leftmost sample `> v` perform the Intermediate branch of
the `try_insert` closure, and if no sample is `> v` perform the Maximum branch
on the last sample. -/
def insertGo (cap : ℕ) (v : α) : List (Sample α) → List (Sample α)
  | [] => [Sample.exact v]
  | [s] =>
    if v < s.value then
      if s.delta + s.g + 1 ≤ cap then [{ s with g := s.g + 1 }]
      else [⟨v, 1, s.g + s.delta - 1⟩, s]
    else
      if s.g + 1 ≤ cap then [{ s with value := v, g := s.g + 1 }]
      else [s, Sample.exact v]
  | s :: s2 :: rest =>
    if v < s.value then
      if s.delta + s.g + 1 ≤ cap then { s with g := s.g + 1 } :: s2 :: rest
      else ⟨v, 1, s.g + s.delta - 1⟩ :: s :: s2 :: rest
    else s :: insertGo cap v (s2 :: rest)

/-- The sample-sequence effect of `Summary::insert_one` (the `try_insert`
closure of `modified_gk/summary.rs` acting on the sorted sequence): Empty,
Minimum (with its micro-compression into the sample after the minimum),
Maximum and Intermediate branches. -/
def insertSamples (cap : ℕ) (v : α) : List (Sample α) → List (Sample α)
  | [] => [Sample.exact v]
  | mn :: rest =>
    if v < mn.value then
      match rest with
      | afterMin :: rest2 =>
        if afterMin.delta + afterMin.g + 1 ≤ cap then
          { mn with value := v } :: { afterMin with g := afterMin.g + 1 } :: rest2
        else Sample.exact v :: mn :: afterMin :: rest2
      | [] => [Sample.exact v, mn]
    else insertGo cap v (mn :: rest)

/-- `Summary::insert_one`: bump `len`, apply the insertion at the new cap, and
compress when the stored samples exceed `max_samples`. -/
def Summary.insertOne (s : Summary α) (v : α) : Summary α :=
  let s1 : Summary α := { s with len := s.len + 1 }
  let s2 : Summary α := { s1 with samples := insertSamples s1.maxGDelta v s1.samples }
  if s2.maxSamples < s2.samples.length then s2.compress else s2

/-- `IncomingMergeState::aditional_delta`.  The file
`modified_gk/incoming_merge_state.rs` is not part of the sources at hand.
Modelled from the spec: the MergeCursor of §4.C4 tracks the delta contribution
the other stream must absorb; the exact formula — the peeked (next) sample's
`delta + g − 1`, and `0` once the cursor is exhausted — is the one fixed by the
`summary_writer.rs` unit tests in the sources (the running-maximum wording of
§4.C4 does not reproduce those tests, the peek-based GK formula does). -/
def aditionalDelta : List (Sample α) → ℕ
  | [] => 0
  | s :: _ => s.delta + s.g - 1

/-- The merge loop of `Summary::merge_sorted_samples`: repeatedly pop the
smaller-valued head (the `other` side on ties), add the opposite cursor's
`aditional_delta` to the popped sample's `delta`, and push to the compressor;
when one side is exhausted push the remainder of the other side unchanged. -/
def mergeLoop (c : SamplesCompressor α) :
    List (Sample α) → List (Sample α) → SamplesCompressor α
  | [], other => c.pushList other
  | sp :: ss, [] => c.pushList (sp :: ss)
  | sp :: ss, op :: os =>
    if sp.value < op.value then
      mergeLoop (c.push { sp with delta := sp.delta + aditionalDelta (op :: os) }) ss (op :: os)
    else
      mergeLoop (c.push { op with delta := op.delta + aditionalDelta (sp :: ss) }) (sp :: ss) os
  termination_by a b => a.length + b.length

/-- `Summary::merge_sorted_samples`. -/
def Summary.mergeSortedSamples (s : Summary α) (otherSamples : List (Sample α))
    (otherLen : ℕ) : Summary α :=
  let s1 : Summary α := { s with len := s.len + otherLen }
  { s1 with samples := (mergeLoop (SamplesCompressor.new s1.maxGDelta) s.samples
      otherSamples).intoSamples }

/-- `Summary::merge`: the `assert!` that the incoming summary has an equal or
smaller `max_expected_error` is modelled as returning `none` (panic). -/
def Summary.merge (s other : Summary α) : Option (Summary α) :=
  if other.maxExpectedError ≤ s.maxExpectedError then
    some (s.mergeSortedSamples other.samples other.len)
  else none

/-- The error raised by `quantile_to_rank` for an out-of-range quantile. -/
inductive QuantileError
  | invalidQuantile
deriving DecidableEq, Repr

/-- `quantile_to_rank` from `lib.rs`: `max(1, ⌈q·num⌉)`, failing on `q ∉ [0,1]`
(the source `assert!` panic). -/
def quantileToRank (q : ℚ) (num : ℕ) : Except QuantileError ℕ :=
  if 0 ≤ q ∧ q ≤ 1 then .ok (max (⌈q * (num : ℚ)⌉.toNat) 1)
  else .error .invalidQuantile

/-- The mapped iterator inside `Summary::query_with_error`: each sample paired
with its maximum rank error, walking with the running `min_rank`. -/
def rankErrorsFrom (targetRank : ℕ) (minRank : ℕ) :
    List (Sample α) → List (Sample α × ℕ)
  | [] => []
  | s :: rest =>
    let minRank2 := minRank + s.g
    let maxRank := minRank2 + s.delta
    let midRank := (minRank2 + maxRank) / 2
    let err := if midRank < targetRank then targetRank - minRank2 else maxRank - targetRank
    (s, err) :: rankErrorsFrom targetRank minRank2 rest

/-- Rust `Iterator::min_by_key`: the first element of minimal key (later
elements replace the current best only when strictly smaller). -/
def minByErrFirst : List (Sample α × ℕ) → Option (Sample α × ℕ)
  | [] => none
  | x :: rest => some (rest.foldl (fun best y => if y.2 < best.2 then y else best) x)

/-- `Summary::query_with_error`; the rank error is reported as `err / len`. -/
def Summary.queryWithError (s : Summary α) (q : ℚ) :
    Except QuantileError (Option (α × ℚ)) :=
  match quantileToRank q s.len with
  | .error e => .error e
  | .ok targetRank =>
    .ok ((minByErrFirst (rankErrorsFrom targetRank 0 s.samples)).map
      (fun x => (x.1.value, (x.2 : ℚ) / (s.len : ℚ))))

/-- `Summary::query`. -/
def Summary.query (s : Summary α) (q : ℚ) : Except QuantileError (Option α) :=
  (s.queryWithError q).map (Option.map Prod.fst)

/-! ### Verification-layer definitions -/

/-- The states a `Summary` can reach through the public mutations, together
with the multiset of values inserted so far: construction (`0 < ε < 1`),
`insert_one`, the internal `compress`, and `merge` (which requires the
operand error to be no larger, as `Summary::merge` asserts, and delegates to
`merge_sorted_samples`). -/
inductive Reachable : Multiset α → Summary α → Prop
  | new (eps : ℚ) (h0 : 0 < eps) (h1 : eps < 1) : Reachable 0 (Summary.new eps)
  | insertOne {vs : Multiset α} {s : Summary α} (h : Reachable vs s) (v : α) :
      Reachable (v ::ₘ vs) (s.insertOne v)
  | compress {vs : Multiset α} {s : Summary α} (h : Reachable vs s) :
      Reachable vs s.compress
  | merge {vs ws : Multiset α} {s t : Summary α} (h : Reachable vs s)
      (h2 : Reachable ws t) (heps : t.maxExpectedError ≤ s.maxExpectedError) :
      Reachable (vs + ws) (s.mergeSortedSamples t.samples t.len)

/-- Total `g` over a sample sequence. -/
def sumG (l : List (Sample α)) : ℕ := (l.map Sample.g).sum

/-- The compressor body as a direct recursion, holding the current block tail:
commit the tail when the incoming sample cannot absorb it, absorb otherwise,
and commit the final tail at the end.  This follows the state transitions the
spec describes for the StreamingCompressor. -/
def compressRun (cap : ℕ) (t : Sample α) : List (Sample α) → List (Sample α)
  | [] => [t]
  | s :: rest =>
    if t.g + s.g + s.delta ≤ cap then compressRun cap { s with g := s.g + t.g } rest
    else t :: compressRun cap s rest

/-- The full compressor as a direct recursion: the first sample is emitted
unchanged, the second (when present) opens the first block. -/
def compressRec (cap : ℕ) : List (Sample α) → List (Sample α)
  | [] => []
  | first :: rest =>
    first :: (match rest with
      | [] => []
      | s :: rest2 => compressRun cap s rest2)

/-- The sequence of samples the merge loop pushes into the compressor,
as a pure function of the two sorted inputs. -/
def mergePushes : List (Sample α) → List (Sample α) → List (Sample α)
  | [], other => other
  | sp :: ss, [] => sp :: ss
  | sp :: ss, op :: os =>
    if sp.value < op.value then
      { sp with delta := sp.delta + aditionalDelta (op :: os) } :: mergePushes ss (op :: os)
    else
      { op with delta := op.delta + aditionalDelta (sp :: ss) } :: mergePushes (sp :: ss) os
  termination_by a b => a.length + b.length

/-- Adjacent delta-dominance: each sample's `delta` is strictly below the next
sample's `g + delta`.  This is the inductive invariant that makes one
compression pass reach a fixpoint. -/
def DomCh (l : List (Sample α)) : Prop :=
  l.Chain' (fun a b => a.delta < b.g + b.delta)

/-- Sortedness of a sample sequence by value. -/
def ValSorted (l : List (Sample α)) : Prop :=
  l.Pairwise (fun a b => a.value ≤ b.value)

/-- The last stored sample (the maximum) carries `delta = 0`. -/
def LastD0 (l : List (Sample α)) : Prop :=
  ∀ x, l.getLast? = some x → x.delta = 0

/-- The structural invariant every reachable `Summary` maintains: samples
sorted by value, positive `g`, `g + delta` within `max(1, ⌊2·ε·len⌋)`,
delta-dominance between neighbours, a `delta`-free maximum, total `g` equal to
`len`, and an error parameter in `(0, 1)`. -/
structure SInv (s : Summary α) : Prop where
  bound : ∀ x ∈ s.samples, x.g + x.delta ≤ max 1 s.maxGDelta
  gpos : ∀ x ∈ s.samples, 1 ≤ x.g
  lastd : LastD0 s.samples
  dom : DomCh s.samples
  sorted : ValSorted s.samples
  sumg : sumG s.samples = s.len
  epos : 0 < s.maxExpectedError
  elt1 : s.maxExpectedError < 1

end FastQuantiles

/-! ### The baseline GK summary (`src/gk`) -/

namespace FastQuantiles.GK

/-- A sample of the baseline implementation, from `gk/sample.rs`: it carries
the cached `band` field. -/
structure GKSample (α : Type) where
  value : α
  g : ℕ
  delta : ℕ
  band : ℕ
deriving DecidableEq, Repr

/-- The baseline summary, from `gk/summary.rs`. -/
structure GKSummary (α : Type) where
  samples : List (GKSample α)
  epsilon : ℚ
  len : ℕ
deriving DecidableEq, Repr

/-- The search loop of `Summary::band`: the smallest `a ≥ a0` with
`delta > p - 2^a - (p mod 2^a)`.  The loop always exits by
`a = ⌊log₂ p⌋` when `1 ≤ delta`, so the fuel `⌊log₂ p⌋ + 1` never runs out on
the arguments the source reaches. -/
def bandLoop (delta p : ℕ) : ℕ → ℕ → ℕ
  | 0, a => a
  | fuel + 1, a =>
    if p - 2 ^ a - p % 2 ^ a < delta then a else bandLoop delta p fuel (a + 1)

/-- `Summary::band` from `gk/summary.rs` (`⌊log₂ p⌋` embeds the source's
`(p as f64).log2().floor()`). -/
def band (delta p : ℕ) : ℕ :=
  if delta = 0 then (if p = 0 then 0 else Nat.log 2 p + 1)
  else bandLoop delta p (Nat.log 2 p + 1) 0

/-- `Summary::band` including its `assert!(delta <= p)` (panic as `none`). -/
def bandChecked (delta p : ℕ) : Option ℕ :=
  if delta ≤ p then some (band delta p) else none

/-- `Summary::update_bands`, propagating the `band` assertion failure. -/
def updateBands {α : Type} (p : ℕ) (l : List (GKSample α)) :
    Option (List (GKSample α)) :=
  l.mapM (fun s => (bandChecked s.delta p).map (fun b => { s with band := b }))

/-- `Summary::scan_all_descendents`: from index `j` walk left over the
contiguous run of strictly smaller bands (never including index 0), returning
the first index of the run and its total `g` (the loop
`while j > 1 && samples[j-1].band < max_band`). -/
def scanAllDescendents {α : Type} (l : List (GKSample α)) (dflt : GKSample α)
    (maxBand : ℕ) : ℕ → ℕ → ℕ × ℕ
  | 0, totalG => (0, totalG)
  | 1, totalG => (1, totalG)
  | j + 2, totalG =>
    if (l.getD (j + 1) dflt).band < maxBand then
      scanAllDescendents l dflt maxBand (j + 1) (totalG + (l.getD (j + 1) dflt).g)
    else (j + 2, totalG)

/-- The index loop of `Summary::compress`: iterate `i` downwards, merging each
sample's descendent run into its right neighbour when the bands allow it and
the combined sample stays below the threshold.  The loop index strictly
decreases each iteration, so running it with fuel equal to the initial index
is exact. -/
def gkCompressLoop {α : Type} (threshold : ℕ) (dflt : GKSample α) :
    List (GKSample α) → ℕ → ℕ → List (GKSample α)
  | l, 0, _ => l
  | l, fuel + 1, i =>
    if 1 < i then
      let i2 := i - 1
      let sample := l.getD i2 dflt
      let next := l.getD (i2 + 1) dflt
      if next.band < sample.band then gkCompressLoop threshold dflt l fuel i2
      else
        let fdg := scanAllDescendents l dflt sample.band i2 sample.g
        let newG := fdg.2 + next.g
        if threshold ≤ newG + next.delta then gkCompressLoop threshold dflt l fuel i2
        else gkCompressLoop threshold dflt
          (l.take fdg.1 ++ [{ next with g := newG }] ++ l.drop (i2 + 2)) fuel fdg.1
    else l

/-- `Summary::compress` of the baseline: update the bands (whose `assert!`
may panic), then run the merging loop starting at `samples.len() - 1`.  On an
empty summary `samples.len() - 1` underflows and the subsequent indexing
panics, modelled as `none`. -/
def gkCompress {α : Type} (s : GKSummary α) : Option (GKSummary α) :=
  let threshold := capAt s.epsilon s.len
  match updateBands threshold s.samples with
  | none => none
  | some l =>
    match l with
    | [] => none
    | h :: _ =>
      some { s with samples := gkCompressLoop threshold h l (l.length - 1) (l.length - 1) }

/-- `Summary::merge` of the baseline: `assert_eq!` on the two epsilons
(modelled as `none` on mismatch), then compress both sides, concatenate, sort
by value (Rust's stable `sort`), and compress the result. -/
def gkMerge {α : Type} [LinearOrder α] (s other : GKSummary α) :
    Option (GKSummary α) :=
  if s.epsilon = other.epsilon then
    match gkCompress s with
    | none => none
    | some s2 =>
      match gkCompress other with
      | none => none
      | some o2 =>
        gkCompress { s2 with
          len := s2.len + o2.len
          samples := (s2.samples ++ o2.samples).mergeSort
            (fun a b => decide (a.value ≤ b.value)) }
  else none

end FastQuantiles.GK

namespace FastQuantiles

variable {α : Type} [LinearOrder α]

/-! ### Concrete-evaluation support

`f64`/`ℚ` arithmetic does not reduce inside the kernel, so the concrete
epsilons and quantiles used in witnesses are given names and their few needed
arithmetic facts are proved once with `norm_num`; the remaining evaluation is
pure `ℕ`/`ℤ` computation that `simp` and `decide` handle. -/

def eps15 : ℚ := 1/5

def eps110 : ℚ := 1/10

def eps12 : ℚ := 1/2

def q310 : ℚ := 3/10

/-- The state reached by inserting the sequence of the repository's unit test
into a fresh `ε = 1/5` summary. -/
private def testSummary : Summary ℤ :=
  (((((((((((Summary.new eps15).insertOne 8).insertOne 6).insertOne
    0).insertOne 4).insertOne 3).insertOne 9).insertOne 2).insertOne
    5).insertOne 1).insertOne 7)

/-- The exact-extremes invariant: every stored value was inserted, the head
sample is `⟨min, 1, 0⟩`, and the last sample carries the maximum inserted
value.  It is maintained by every reachable state whose `ε` is below `1/2`. -/
structure QList (vs : Multiset α) (l : List (Sample α)) : Prop where
  valmem : ∀ x ∈ l, x.value ∈ vs
  head : vs ≠ 0 → ∃ m t, l = ⟨m, 1, 0⟩ :: t ∧ ∀ x ∈ vs, m ≤ x
  last : vs ≠ 0 → ∃ x, l.getLast? = some x ∧ ∀ y ∈ vs, y ≤ x.value

/-- Spec-side `min_rank_i = Σ_{j ≤ i} g_j`, following the query description
of the spec word for word (to be compared with `rankErrorsFrom`). -/
def specMinRank (l : List (Sample α)) (i : ℕ) : ℕ := sumG (l.take (i + 1))

/-- The `delta` of the `i`-th sample (0 out of range, unused there). -/
def specDelta (l : List (Sample α)) (i : ℕ) : ℕ :=
  ((l[i]?.map Sample.delta).getD 0)

/-- Spec-side `max_rank_i = min_rank_i + delta_i`. -/
def specMaxRank (l : List (Sample α)) (i : ℕ) : ℕ :=
  specMinRank l i + specDelta l i

/-- Spec-side rank error of sample `i` against the target rank:
`mid_i = (min_rank_i + max_rank_i) / 2` (integer division), then
`err_i = target - min_rank_i` when `target > mid_i`, else
`max_rank_i - target`. -/
def specErr (target : ℕ) (l : List (Sample α)) (i : ℕ) : ℕ :=
  if (specMinRank l i + specMaxRank l i) / 2 < target
  then target - specMinRank l i
  else specMaxRank l i - target

/-- Inserting `0, 10, 5` at `ε = 1/10`: the middle sample then violates the
un-amended `P4` bound (`⌊2·ε·len⌋ = 0`). -/
private def c1state : Summary ℤ :=
  (((Summary.new eps110).insertOne 0).insertOne 10).insertOne 5

/-- Inserting `10, 20` at `ε = 1/2`: the Maximum micro-compression absorbs the
minimum, so `query 0` no longer returns it. -/
private def c7state : Summary ℤ :=
  ((Summary.new eps12).insertOne 10).insertOne 20

lemma cap_eps15_1 : capAt eps15 1 = 0 := by norm_num [capAt, eps15]

lemma cap_eps15_2 : capAt eps15 2 = 0 := by norm_num [capAt, eps15]

lemma cap_eps15_3 : capAt eps15 3 = 1 := by norm_num [capAt, eps15]

lemma cap_eps15_4 : capAt eps15 4 = 1 := by norm_num [capAt, eps15]

lemma cap_eps15_5 : capAt eps15 5 = 2 := by norm_num [capAt, eps15]; rfl

lemma cap_eps15_6 : capAt eps15 6 = 2 := by norm_num [capAt, eps15]; rfl

lemma cap_eps15_7 : capAt eps15 7 = 2 := by norm_num [capAt, eps15]; rfl

lemma cap_eps15_8 : capAt eps15 8 = 3 := by norm_num [capAt, eps15]; rfl

lemma cap_eps15_9 : capAt eps15 9 = 3 := by norm_num [capAt, eps15]; rfl

lemma cap_eps15_10 : capAt eps15 10 = 4 := by norm_num [capAt, eps15]; rfl

lemma cap_eps110_1 : capAt eps110 1 = 0 := by norm_num [capAt, eps110]

lemma cap_eps110_2 : capAt eps110 2 = 0 := by norm_num [capAt, eps110]

lemma cap_eps110_3 : capAt eps110 3 = 0 := by norm_num [capAt, eps110]

lemma cap_eps12_1 : capAt eps12 1 = 1 := by norm_num [capAt, eps12]

lemma cap_eps12_2 : capAt eps12 2 = 2 := by norm_num [capAt, eps12]; rfl

lemma new_eps15 : (Summary.new (α := ℤ) eps15) =
    { samples := [], maxSamples := 25, maxExpectedError := eps15, len := 0 } := by
  simp only [Summary.new, Summary.mk.injEq, and_true, true_and]
  norm_num [eps15]; rfl

lemma new_eps110 : (Summary.new (α := ℤ) eps110) =
    { samples := [], maxSamples := 50, maxExpectedError := eps110, len := 0 } := by
  simp only [Summary.new, Summary.mk.injEq, and_true, true_and]
  norm_num [eps110]; rfl

lemma new_eps12 : (Summary.new (α := ℤ) eps12) =
    { samples := [], maxSamples := 10, maxExpectedError := eps12, len := 0 } := by
  simp only [Summary.new, Summary.mk.injEq, and_true, true_and]
  norm_num [eps12]; rfl

lemma rank_q310_10 : quantileToRank q310 10 = .ok 3 := by
  norm_num [quantileToRank, q310]; rfl

lemma rank_q0 (n : ℕ) : quantileToRank 0 n = .ok 1 := by
  norm_num [quantileToRank]

lemma rank_q1 (n : ℕ) : quantileToRank 1 n = .ok (max n 1) := by
  norm_num [quantileToRank]

/-! Sanity checks, mirroring the unit tests of `modified_gk/summary.rs` and
`modified_gk/samples_compressor.rs`. -/

set_option maxHeartbeats 2000000 in
private lemma testSummary_eq : testSummary =
    { samples := [⟨0,1,0⟩, ⟨2,2,1⟩, ⟨4,2,0⟩, ⟨6,2,0⟩, ⟨9,3,0⟩]
      maxSamples := 25, maxExpectedError := eps15, len := 10 } := by
  simp [testSummary, Summary.insertOne, new_eps15, Summary.maxGDelta,
    insertSamples, insertGo, Sample.exact, cap_eps15_1, cap_eps15_2, cap_eps15_3,
    cap_eps15_4, cap_eps15_5, cap_eps15_6, cap_eps15_7, cap_eps15_8, cap_eps15_9,
    cap_eps15_10]

example : testSummary.compress.samples =
    [⟨0,1,0⟩, ⟨4,4,0⟩, ⟨6,2,0⟩, ⟨9,3,0⟩] := by
  simp [testSummary_eq, Summary.compress, compressSamples, Summary.maxGDelta,
    SamplesCompressor.new, SamplesCompressor.push, SamplesCompressor.pushList,
    SamplesCompressor.intoSamples, cap_eps15_10]

example : testSummary.compress.query q310 = .ok (some 0) := by
  simp [testSummary_eq, Summary.compress, compressSamples, Summary.maxGDelta,
    SamplesCompressor.new, SamplesCompressor.push, SamplesCompressor.pushList,
    SamplesCompressor.intoSamples, cap_eps15_10, Summary.query, Except.map,
    Summary.queryWithError, rank_q310_10, rankErrorsFrom, minByErrFirst]

example : compressSamples 5 ((List.range 9).map (fun v => ⟨(v : ℤ), 1, 2⟩)) =
    [⟨0,1,2⟩, ⟨3,3,2⟩, ⟨6,3,2⟩, ⟨8,2,2⟩] := by decide

/-! ### The compressor: fold form versus recursive form, and its invariants -/

lemma pushList_some_eq_compressRun (cap : ℕ) (l : List (Sample α)) :
    ∀ (out : List (Sample α)) (t : Sample α),
      (SamplesCompressor.pushList ⟨cap, out, some t⟩ l).intoSamples =
        out ++ compressRun cap t l := by
  induction l with
  | nil =>
    intro out t
    simp [SamplesCompressor.pushList, SamplesCompressor.intoSamples, compressRun]
  | cons s rest ih =>
    intro out t
    by_cases h : t.g + s.g + s.delta ≤ cap
    · have : SamplesCompressor.pushList (⟨cap, out, some t⟩ : SamplesCompressor α)
          (s :: rest) = SamplesCompressor.pushList ⟨cap, out, some { s with g := s.g + t.g }⟩
            rest := by
        simp [SamplesCompressor.pushList, SamplesCompressor.push, h]
      rw [this, ih, compressRun, if_pos h]
    · have : SamplesCompressor.pushList (⟨cap, out, some t⟩ : SamplesCompressor α)
          (s :: rest) = SamplesCompressor.pushList ⟨cap, out ++ [t], some s⟩ rest := by
        simp [SamplesCompressor.pushList, SamplesCompressor.push, h]
      rw [this, ih, compressRun, if_neg h]
      simp

lemma compressSamples_eq_compressRec (cap : ℕ) (l : List (Sample α)) :
    compressSamples cap l = compressRec cap l := by
  match l with
  | [] => simp [compressSamples, compressRec, SamplesCompressor.new,
      SamplesCompressor.pushList, SamplesCompressor.intoSamples]
  | [a] => simp [compressSamples, compressRec, SamplesCompressor.new,
      SamplesCompressor.pushList, SamplesCompressor.push, SamplesCompressor.intoSamples]
  | a :: s :: rest =>
    have h1 : SamplesCompressor.pushList (SamplesCompressor.new (α := α) cap)
        (a :: s :: rest) = SamplesCompressor.pushList ⟨cap, [a], some s⟩ rest := by
      simp [SamplesCompressor.pushList, SamplesCompressor.new, SamplesCompressor.push]
    rw [compressSamples, h1, pushList_some_eq_compressRun]
    simp [compressRec]

lemma getLast?_cons_ne {β : Type} (a : β) {l : List β} (h : l ≠ []) :
    (a :: l).getLast? = l.getLast? := by
  cases l with
  | nil => exact absurd rfl h
  | cons b m => simp

lemma compressRun_ne_nil (cap : ℕ) (t : Sample α) (l : List (Sample α)) :
    compressRun cap t l ≠ [] := by
  induction l generalizing t with
  | nil => simp [compressRun]
  | cons s rest ih =>
    rw [compressRun]
    split
    · exact ih _
    · simp

lemma sumG_compressRun (cap : ℕ) (l : List (Sample α)) :
    ∀ t, sumG (compressRun cap t l) = t.g + sumG l := by
  induction l with
  | nil => intro t; simp [compressRun, sumG]
  | cons s rest ih =>
    intro t
    rw [compressRun]
    split
    · rw [ih]
      simp only [sumG, List.map_cons, List.sum_cons]
      omega
    · simp only [sumG, List.map_cons, List.sum_cons] at ih ⊢
      rw [ih]

lemma sumG_compressRec (cap : ℕ) (l : List (Sample α)) :
    sumG (compressRec cap l) = sumG l := by
  match l with
  | [] => rfl
  | [a] => rfl
  | a :: s :: rest =>
    simp only [compressRec, sumG, List.map_cons, List.sum_cons]
    have := sumG_compressRun cap rest s
    simp only [sumG] at this
    omega

lemma compressRun_bound {M cap : ℕ} (hcap : cap ≤ M) {l : List (Sample α)} :
    ∀ t, t.g + t.delta ≤ M → (∀ x ∈ l, x.g + x.delta ≤ M) →
      ∀ x ∈ compressRun cap t l, x.g + x.delta ≤ M := by
  induction l with
  | nil =>
    intro t ht _ x hx
    rw [compressRun] at hx
    simp at hx
    subst hx; exact ht
  | cons s rest ih =>
    intro t ht hl x hx
    rw [compressRun] at hx
    split at hx
    · refine ih _ (by simp; omega) (fun y hy => hl y (by simp [hy])) x hx
    · rcases List.mem_cons.mp hx with h | h
      · subst h; exact ht
      · exact ih _ (hl s (by simp)) (fun y hy => hl y (by simp [hy])) x h

lemma compressRun_gpos {cap : ℕ} {l : List (Sample α)} :
    ∀ t, 1 ≤ t.g → (∀ x ∈ l, 1 ≤ x.g) → ∀ x ∈ compressRun cap t l, 1 ≤ x.g := by
  induction l with
  | nil =>
    intro t ht _ x hx
    rw [compressRun] at hx
    simp at hx
    subst hx; exact ht
  | cons s rest ih =>
    intro t ht hl x hx
    rw [compressRun] at hx
    split at hx
    · refine ih _ ?_ (fun y hy => hl y (by simp [hy])) x hx
      have := hl s (by simp)
      simp
      omega
    · rcases List.mem_cons.mp hx with h | h
      · subst h; exact ht
      · exact ih _ (hl s (by simp)) (fun y hy => hl y (by simp [hy])) x h

lemma compressRun_value_mem {cap : ℕ} {l : List (Sample α)} :
    ∀ t, ∀ x ∈ compressRun cap t l, x.value ∈ (t :: l).map Sample.value := by
  induction l with
  | nil =>
    intro t x hx
    rw [compressRun] at hx
    simp at hx
    simp [hx]
  | cons s rest ih =>
    intro t x hx
    rw [compressRun] at hx
    split at hx
    · have := ih _ x hx
      simp at this ⊢
      tauto
    · rcases List.mem_cons.mp hx with h | h
      · simp [h]
      · have := ih _ x h
        simp at this ⊢
        tauto

lemma compressRun_getLast? {cap : ℕ} {l : List (Sample α)} :
    ∀ t, (compressRun cap t l).getLast?.map (fun x => (x.value, x.delta)) =
      (t :: l).getLast?.map (fun x => (x.value, x.delta)) := by
  induction l with
  | nil => intro t; simp [compressRun]
  | cons s rest ih =>
    intro t
    rw [compressRun]
    split
    · rw [ih]
      cases rest with
      | nil => simp
      | cons b rl => simp [List.getLast?_cons_cons]
    · rw [getLast?_cons_ne t (compressRun_ne_nil cap s rest), ih]
      cases rest with
      | nil => simp
      | cons b rl => simp [List.getLast?_cons_cons]

/-! ### Delta-dominance through the compressor -/

lemma compressRun_head_ge {cap : ℕ} {l : List (Sample α)} :
    ∀ s, DomCh (s :: l) →
      ∃ h2 r2, compressRun cap s l = h2 :: r2 ∧ s.g + s.delta ≤ h2.g + h2.delta := by
  induction l with
  | nil => intro s _; exact ⟨s, [], rfl, le_refl _⟩
  | cons y t ih =>
    intro s hdom
    have hrel : s.delta < y.g + y.delta := (List.chain'_cons.mp hdom).1
    have htail : DomCh (y :: t) := (List.chain'_cons.mp hdom).2
    rw [compressRun]
    split
    · have hdom2 : DomCh ({ y with g := y.g + s.g } :: t) := by
        rcases t with _ | ⟨z, t2⟩
        · simp [DomCh]
        · exact List.chain'_cons.mpr ⟨(List.chain'_cons.mp htail).1,
            (List.chain'_cons.mp htail).2⟩
      obtain ⟨h2, r2, heq, hle⟩ := ih _ hdom2
      refine ⟨h2, r2, heq, ?_⟩
      simp at hle
      omega
    · exact ⟨s, compressRun cap y t, rfl, le_refl _⟩

lemma compressRun_dom {cap : ℕ} {l : List (Sample α)} :
    ∀ s, DomCh (s :: l) → DomCh (compressRun cap s l) := by
  induction l with
  | nil => intro s _; simp [compressRun, DomCh]
  | cons y t ih =>
    intro s hdom
    have hrel : s.delta < y.g + y.delta := (List.chain'_cons.mp hdom).1
    have htail : DomCh (y :: t) := (List.chain'_cons.mp hdom).2
    rw [compressRun]
    split
    · refine ih _ ?_
      rcases t with _ | ⟨z, t2⟩
      · simp [DomCh]
      · exact List.chain'_cons.mpr ⟨(List.chain'_cons.mp htail).1,
          (List.chain'_cons.mp htail).2⟩
    · obtain ⟨h2, r2, heq, hle⟩ := @compressRun_head_ge _ _ cap _ y htail
      rw [heq]
      refine List.chain'_cons.mpr ⟨?_, heq ▸ ih _ htail⟩
      omega

lemma compressRun_commit_chain {cap : ℕ} {l : List (Sample α)} :
    ∀ s, DomCh (s :: l) →
      (compressRun cap s l).Chain' (fun a b => cap < a.g + b.g + b.delta) := by
  induction l with
  | nil => intro s _; simp [compressRun]
  | cons y t ih =>
    intro s hdom
    have htail : DomCh (y :: t) := (List.chain'_cons.mp hdom).2
    rw [compressRun]
    split
    · refine ih _ ?_
      rcases t with _ | ⟨z, t2⟩
      · simp [DomCh]
      · exact List.chain'_cons.mpr ⟨(List.chain'_cons.mp htail).1,
          (List.chain'_cons.mp htail).2⟩
    · rename_i hgt
      obtain ⟨h2, r2, heq, hle⟩ := @compressRun_head_ge _ _ cap _ y htail
      rw [heq]
      refine List.chain'_cons.mpr ⟨?_, heq ▸ ih _ htail⟩
      omega

lemma compressRun_of_commit_chain {cap : ℕ} {l : List (Sample α)} :
    ∀ s, (s :: l).Chain' (fun a b => cap < a.g + b.g + b.delta) →
      compressRun cap s l = s :: l := by
  induction l with
  | nil => intro s _; simp [compressRun]
  | cons y t ih =>
    intro s hch
    rw [compressRun, if_neg (by have := (List.chain'_cons.mp hch).1; omega),
      ih _ (List.chain'_cons.mp hch).2]

lemma compressRec_cons_cons (cap : ℕ) (a s : Sample α) (rest : List (Sample α)) :
    compressRec cap (a :: s :: rest) = a :: compressRun cap s rest := rfl

lemma compressRec_dom {cap : ℕ} {l : List (Sample α)} (h : DomCh l) :
    DomCh (compressRec cap l) := by
  match l with
  | [] => exact h
  | [a] => exact h
  | a :: s :: rest =>
    have hrel : a.delta < s.g + s.delta := (List.chain'_cons.mp h).1
    have htail : DomCh (s :: rest) := (List.chain'_cons.mp h).2
    obtain ⟨h2, r2, heq, hle⟩ := @compressRun_head_ge _ _ cap _ s htail
    rw [compressRec_cons_cons, heq]
    exact List.chain'_cons.mpr ⟨by omega, heq ▸ compressRun_dom s htail⟩

lemma compressRec_idem {cap : ℕ} {l : List (Sample α)} (h : DomCh l) :
    compressRec cap (compressRec cap l) = compressRec cap l := by
  match l with
  | [] => rfl
  | [a] => rfl
  | a :: s :: rest =>
    have htail : DomCh (s :: rest) := (List.chain'_cons.mp h).2
    have hch := @compressRun_commit_chain _ _ cap _ s htail
    obtain ⟨h2, r2, heq, _⟩ := @compressRun_head_ge _ _ cap _ s htail
    rw [compressRec_cons_cons, heq, compressRec_cons_cons,
      compressRun_of_commit_chain h2 (heq ▸ hch), ← heq]

/-! ### The insertion path -/

lemma insertGo_ne_nil (cap : ℕ) (v : α) (l : List (Sample α)) :
    insertGo cap v l ≠ [] := by
  induction l with
  | nil => simp [insertGo]
  | cons s rest ih =>
    cases rest with
    | nil =>
      rw [insertGo]
      split <;> split <;> simp
    | cons s2 rest2 =>
      rw [insertGo]
      split
      · split <;> simp
      · simp

lemma sumG_insertGo (cap : ℕ) (v : α) (l : List (Sample α)) :
    sumG (insertGo cap v l) = sumG l + 1 := by
  induction l with
  | nil => simp [insertGo, sumG, Sample.exact]
  | cons s rest ih =>
    cases rest with
    | nil =>
      rw [insertGo]
      split <;> split <;> simp [sumG, Sample.exact] <;> omega
    | cons s2 rest2 =>
      rw [insertGo]
      split
      · split <;> simp [sumG, Sample.exact] <;> omega
      · simp only [sumG, List.map_cons, List.sum_cons] at ih ⊢
        omega

lemma sumG_insertSamples (cap : ℕ) (v : α) (l : List (Sample α)) :
    sumG (insertSamples cap v l) = sumG l + 1 := by
  cases l with
  | nil => simp [insertSamples, sumG, Sample.exact]
  | cons mn rest =>
    cases rest with
    | nil =>
      rw [insertSamples]
      split
      · simp [sumG, Sample.exact]; omega
      · exact sumG_insertGo cap v [mn]
    | cons am rest2 =>
      rw [insertSamples]
      split
      · split <;> simp [sumG, Sample.exact] <;> omega
      · exact sumG_insertGo cap v (mn :: am :: rest2)

lemma insertGo_value_mem (cap : ℕ) (v : α) (l : List (Sample α)) :
    ∀ x ∈ insertGo cap v l, x.value = v ∨ ∃ y ∈ l, x.value = y.value := by
  induction l with
  | nil =>
    intro x hx
    rw [insertGo] at hx
    simp [Sample.exact] at hx
    subst hx
    left
    rfl
  | cons s rest ih =>
    intro x hx
    cases rest with
    | nil =>
      rw [insertGo] at hx
      split at hx
      · split at hx
        · simp at hx
          subst hx
          right
          exact ⟨s, by simp, rfl⟩
        · simp at hx
          rcases hx with h | h
          · subst h; left; rfl
          · right; exact ⟨s, by simp, by rw [h]⟩
      · split at hx
        · simp at hx
          subst hx
          left
          rfl
        · simp at hx
          rcases hx with h | h
          · right; exact ⟨s, by simp, by rw [h]⟩
          · subst h; left; rfl
    | cons s2 rest2 =>
      rw [insertGo] at hx
      split at hx
      · split at hx
        · rcases List.mem_cons.mp hx with h | h
          · subst h; right; exact ⟨s, by simp, rfl⟩
          · right; exact ⟨x, by simp [h], rfl⟩
        · rcases List.mem_cons.mp hx with h | h
          · subst h; left; rfl
          · right; exact ⟨x, by simpa using h, rfl⟩
      · rcases List.mem_cons.mp hx with h | h
        · right; exact ⟨s, by simp, by rw [h]⟩
        · rcases ih x h with h2 | ⟨y, hy, hv⟩
          · left; exact h2
          · right; exact ⟨y, by simp [hy], hv⟩

lemma insertGo_head_ge (cap : ℕ) (v : α) (s : Sample α) (rest : List (Sample α))
    (hg : 1 ≤ s.g) :
    ∃ h r, insertGo cap v (s :: rest) = h :: r ∧ s.g + s.delta ≤ h.g + h.delta := by
  cases rest with
  | nil =>
    rw [insertGo]
    split
    · split
      · refine ⟨_, _, rfl, ?_⟩
        show s.g + s.delta ≤ s.g + 1 + s.delta
        omega
      · refine ⟨_, _, rfl, ?_⟩
        show s.g + s.delta ≤ 1 + (s.g + s.delta - 1)
        omega
    · split
      · refine ⟨_, _, rfl, ?_⟩
        show s.g + s.delta ≤ s.g + 1 + s.delta
        omega
      · exact ⟨s, _, rfl, le_refl _⟩
  | cons s2 rest2 =>
    rw [insertGo]
    split
    · split
      · refine ⟨_, _, rfl, ?_⟩
        show s.g + s.delta ≤ s.g + 1 + s.delta
        omega
      · refine ⟨_, _, rfl, ?_⟩
        show s.g + s.delta ≤ 1 + (s.g + s.delta - 1)
        omega
    · exact ⟨s, _, rfl, le_refl _⟩

lemma insertGo_bound {M cap : ℕ} (hcap : cap ≤ M) (hM : 1 ≤ M) (v : α)
    {l : List (Sample α)} (hl : ∀ x ∈ l, x.g + x.delta ≤ M) (hlast : LastD0 l) :
    ∀ x ∈ insertGo cap v l, x.g + x.delta ≤ M := by
  induction l with
  | nil =>
    intro x hx
    rw [insertGo] at hx
    simp [Sample.exact] at hx
    subst hx
    show 1 + 0 ≤ M
    omega
  | cons s rest ih =>
    have hs := hl s (by simp)
    intro x hx
    cases rest with
    | nil =>
      have hd0 : s.delta = 0 := hlast s rfl
      rw [insertGo] at hx
      split at hx
      · split at hx
        · simp at hx
          subst hx
          show s.g + 1 + s.delta ≤ M
          rename_i hc _
          omega
        · simp at hx
          rcases hx with h | h
          · subst h
            show 1 + (s.g + s.delta - 1) ≤ M
            omega
          · subst h; exact hs
      · split at hx
        · simp at hx
          subst hx
          show s.g + 1 + s.delta ≤ M
          rename_i hc
          omega
        · simp at hx
          rcases hx with h | h
          · subst h; exact hs
          · subst h
            show 1 + 0 ≤ M
            omega
    | cons s2 rest2 =>
      rw [insertGo] at hx
      split at hx
      · split at hx
        · rcases List.mem_cons.mp hx with h | h
          · subst h
            show s.g + 1 + s.delta ≤ M
            rename_i hc _
            omega
          · exact hl x (by simp [h])
        · rcases List.mem_cons.mp hx with h | h
          · subst h
            show 1 + (s.g + s.delta - 1) ≤ M
            omega
          · exact hl x (by simpa using h)
      · rcases List.mem_cons.mp hx with h | h
        · subst h; exact hs
        · exact ih (fun y hy => hl y (by simp [hy]))
            (fun y hy => hlast y (by rw [List.getLast?_cons_cons]; exact hy)) x h

lemma insertGo_gpos {cap : ℕ} (v : α) {l : List (Sample α)}
    (hl : ∀ x ∈ l, 1 ≤ x.g) :
    ∀ x ∈ insertGo cap v l, 1 ≤ x.g := by
  induction l with
  | nil =>
    intro x hx
    rw [insertGo] at hx
    simp [Sample.exact] at hx
    subst hx
    exact le_refl 1
  | cons s rest ih =>
    have hs := hl s (by simp)
    intro x hx
    cases rest with
    | nil =>
      rw [insertGo] at hx
      split at hx <;> split at hx <;> simp [Sample.exact] at hx <;>
        [skip; rcases hx with h | h; skip; rcases hx with h | h]
      · subst hx; show 1 ≤ s.g + 1; omega
      · subst h; exact le_refl 1
      · subst h; exact hs
      · subst hx; show 1 ≤ s.g + 1; omega
      · subst h; exact hs
      · subst h; exact le_refl 1
    | cons s2 rest2 =>
      rw [insertGo] at hx
      split at hx
      · split at hx
        · rcases List.mem_cons.mp hx with h | h
          · subst h; show 1 ≤ s.g + 1; omega
          · exact hl x (by simp [h])
        · rcases List.mem_cons.mp hx with h | h
          · subst h; exact le_refl 1
          · exact hl x (by simpa using h)
      · rcases List.mem_cons.mp hx with h | h
        · subst h; exact hs
        · exact ih (fun y hy => hl y (by simp [hy])) x h

lemma insertGo_lastd {cap : ℕ} (v : α) {l : List (Sample α)} (hlast : LastD0 l) :
    LastD0 (insertGo cap v l) := by
  induction l with
  | nil =>
    intro x hx
    rw [insertGo] at hx
    simp [Sample.exact] at hx
    subst hx
    rfl
  | cons s rest ih =>
    cases rest with
    | nil =>
      have hd0 : s.delta = 0 := hlast s rfl
      intro x hx
      rw [insertGo] at hx
      split at hx <;> split at hx <;> simp at hx
      · subst hx; exact hd0
      · subst hx; exact hd0
      · subst hx; exact hd0
      · subst hx; rfl
    | cons s2 rest2 =>
      have htail : LastD0 (s2 :: rest2) := by
        intro y hy
        exact hlast y (by rw [List.getLast?_cons_cons]; exact hy)
      intro x hx
      rw [insertGo] at hx
      split at hx
      · split at hx
        · rw [List.getLast?_cons_cons] at hx
          exact htail x hx
        · rw [List.getLast?_cons_cons, List.getLast?_cons_cons] at hx
          exact htail x hx
      · rw [getLast?_cons_ne s (insertGo_ne_nil cap v (s2 :: rest2))] at hx
        exact ih htail x hx

lemma insertGo_dom {cap : ℕ} (v : α) {l : List (Sample α)} (hdom : DomCh l)
    (hlast : LastD0 l) (hg : ∀ x ∈ l, 1 ≤ x.g) :
    DomCh (insertGo cap v l) := by
  induction l with
  | nil => simp [insertGo, DomCh]
  | cons s rest ih =>
    have hs := hg s (by simp)
    cases rest with
    | nil =>
      have hd0 : s.delta = 0 := hlast s rfl
      rw [insertGo]
      split <;> split
      · simp [DomCh]
      · refine List.chain'_cons.mpr ⟨?_, by simp [DomCh]⟩
        show (⟨v, 1, s.g + s.delta - 1⟩ : Sample α).delta < s.g + s.delta
        show s.g + s.delta - 1 < s.g + s.delta
        omega
      · simp [DomCh]
      · refine List.chain'_cons.mpr ⟨?_, by simp [DomCh]⟩
        show s.delta < 1 + 0
        omega
    | cons s2 rest2 =>
      have hrel : s.delta < s2.g + s2.delta := (List.chain'_cons.mp hdom).1
      have htail : DomCh (s2 :: rest2) := (List.chain'_cons.mp hdom).2
      have htl : LastD0 (s2 :: rest2) := by
        intro y hy
        exact hlast y (by rw [List.getLast?_cons_cons]; exact hy)
      have htg : ∀ x ∈ s2 :: rest2, 1 ≤ x.g := fun y hy => hg y (by simp [hy])
      rw [insertGo]
      split
      · split
        · refine List.chain'_cons.mpr ⟨?_, (List.chain'_cons.mp hdom).2⟩
          show s.delta < s2.g + s2.delta
          exact hrel
        · refine List.chain'_cons.mpr ⟨?_, hdom⟩
          show s.g + s.delta - 1 < s.g + s.delta
          omega
      · obtain ⟨h2, r2, heq, hge⟩ := insertGo_head_ge cap v s2 rest2 (htg s2 (by simp))
        rw [heq]
        refine List.chain'_cons.mpr ⟨?_, heq ▸ ih htail htl htg⟩
        omega

lemma insertGo_sorted {cap : ℕ} {v : α} {l : List (Sample α)} (hs : ValSorted l) :
    ValSorted (insertGo cap v l) := by
  induction l with
  | nil => simp [insertGo, ValSorted]
  | cons s rest ih =>
    cases rest with
    | nil =>
      rw [insertGo]
      split <;> split
      · simp [ValSorted]
      · rename_i hlt _
        refine List.pairwise_cons.mpr ⟨?_, by simp [ValSorted]⟩
        intro y hy
        simp at hy
        rw [hy]
        exact le_of_lt hlt
      · simp [ValSorted]
      · rename_i hge _
        refine List.pairwise_cons.mpr ⟨?_, by simp [ValSorted]⟩
        intro y hy
        simp at hy
        rw [hy]
        exact le_of_not_lt hge
    | cons s2 rest2 =>
      have hhead : ∀ y ∈ s2 :: rest2, s.value ≤ y.value :=
        fun y hy => (List.pairwise_cons.mp hs).1 y hy
      have htail : ValSorted (s2 :: rest2) := (List.pairwise_cons.mp hs).2
      rw [insertGo]
      split
      · rename_i hlt
        split
        · refine List.pairwise_cons.mpr ⟨?_, htail⟩
          intro y hy
          rcases List.mem_cons.mp hy with h | h
          · rw [h]
            exact hhead s2 (by simp)
          · exact hhead y (by simp [h])
        · refine List.pairwise_cons.mpr ⟨?_, hs⟩
          intro y hy
          show v ≤ y.value
          rcases List.mem_cons.mp hy with h | h
          · subst h; exact le_of_lt hlt
          · exact le_trans (le_of_lt hlt) (hhead y h)
      · rename_i hge
        refine List.pairwise_cons.mpr ⟨?_, ih htail⟩
        intro y hy
        rcases insertGo_value_mem cap v (s2 :: rest2) y hy with h | ⟨z, hz, hv⟩
        · rw [h]
          exact le_of_not_lt hge
        · rw [hv]
          exact hhead z hz

lemma insertSamples_ne_nil (cap : ℕ) (v : α) (l : List (Sample α)) :
    insertSamples cap v l ≠ [] := by
  cases l with
  | nil => simp [insertSamples]
  | cons mn rest =>
    cases rest with
    | nil =>
      rw [insertSamples]
      split
      · simp
      · exact insertGo_ne_nil cap v [mn]
    | cons am rest2 =>
      rw [insertSamples]
      split
      · split <;> simp
      · exact insertGo_ne_nil cap v (mn :: am :: rest2)

lemma insertSamples_bound {M cap : ℕ} (hcap : cap ≤ M) (hM : 1 ≤ M) (v : α)
    {l : List (Sample α)} (hl : ∀ x ∈ l, x.g + x.delta ≤ M) (hlast : LastD0 l) :
    ∀ x ∈ insertSamples cap v l, x.g + x.delta ≤ M := by
  cases l with
  | nil =>
    intro x hx
    simp [insertSamples, Sample.exact] at hx
    subst hx
    show 1 + 0 ≤ M
    omega
  | cons mn rest =>
    cases rest with
    | nil =>
      intro x hx
      rw [insertSamples] at hx
      split at hx
      · simp [Sample.exact] at hx
        rcases hx with h | h
        · subst h; show 1 + 0 ≤ M; omega
        · rw [h]; exact hl mn (by simp)
      · exact insertGo_bound hcap hM v hl hlast x hx
    | cons am rest2 =>
      intro x hx
      rw [insertSamples] at hx
      split at hx
      · split at hx
        · rcases List.mem_cons.mp hx with h | h
          · subst h
            show mn.g + mn.delta ≤ M
            exact hl mn (by simp)
          · rcases List.mem_cons.mp h with h2 | h2
            · subst h2
              show am.g + 1 + am.delta ≤ M
              rename_i hc _
              omega
            · exact hl x (by simp [h2])
        · rcases List.mem_cons.mp hx with h | h
          · subst h; show 1 + 0 ≤ M; omega
          · exact hl x (by simpa using h)
      · exact insertGo_bound hcap hM v hl hlast x hx

lemma insertSamples_gpos {cap : ℕ} (v : α) {l : List (Sample α)}
    (hl : ∀ x ∈ l, 1 ≤ x.g) :
    ∀ x ∈ insertSamples cap v l, 1 ≤ x.g := by
  cases l with
  | nil =>
    intro x hx
    simp [insertSamples, Sample.exact] at hx
    subst hx
    exact le_refl 1
  | cons mn rest =>
    cases rest with
    | nil =>
      intro x hx
      rw [insertSamples] at hx
      split at hx
      · simp [Sample.exact] at hx
        rcases hx with h | h
        · subst h; exact le_refl 1
        · rw [h]; exact hl mn (by simp)
      · exact insertGo_gpos v hl x hx
    | cons am rest2 =>
      intro x hx
      rw [insertSamples] at hx
      split at hx
      · split at hx
        · rcases List.mem_cons.mp hx with h | h
          · subst h
            show 1 ≤ mn.g
            exact hl mn (by simp)
          · rcases List.mem_cons.mp h with h2 | h2
            · subst h2
              show 1 ≤ am.g + 1
              omega
            · exact hl x (by simp [h2])
        · rcases List.mem_cons.mp hx with h | h
          · subst h; exact le_refl 1
          · exact hl x (by simpa using h)
      · exact insertGo_gpos v hl x hx

lemma insertSamples_lastd {cap : ℕ} (v : α) {l : List (Sample α)}
    (hlast : LastD0 l) : LastD0 (insertSamples cap v l) := by
  cases l with
  | nil =>
    intro x hx
    simp [insertSamples, Sample.exact] at hx
    subst hx
    rfl
  | cons mn rest =>
    cases rest with
    | nil =>
      intro x hx
      rw [insertSamples] at hx
      split at hx
      · simp at hx
        subst hx
        exact hlast mn rfl
      · exact insertGo_lastd v hlast x hx
    | cons am rest2 =>
      have htail : LastD0 (am :: rest2) := by
        intro y hy
        exact hlast y (by rw [List.getLast?_cons_cons]; exact hy)
      intro x hx
      rw [insertSamples] at hx
      split at hx
      · split at hx
        · rw [List.getLast?_cons_cons] at hx
          cases rest2 with
          | nil =>
            simp at hx
            subst hx
            exact htail am rfl
          | cons b rest3 =>
            rw [List.getLast?_cons_cons] at hx
            exact htail x (by rw [List.getLast?_cons_cons]; exact hx)
        · rw [List.getLast?_cons_cons, List.getLast?_cons_cons] at hx
          exact htail x hx
      · exact insertGo_lastd v hlast x hx

lemma insertSamples_dom {cap : ℕ} (v : α) {l : List (Sample α)} (hdom : DomCh l)
    (hlast : LastD0 l) (hg : ∀ x ∈ l, 1 ≤ x.g) :
    DomCh (insertSamples cap v l) := by
  cases l with
  | nil => simp [insertSamples, DomCh]
  | cons mn rest =>
    cases rest with
    | nil =>
      rw [insertSamples]
      split
      · refine List.chain'_cons.mpr ⟨?_, by simp [DomCh]⟩
        show (0 : ℕ) < mn.g + mn.delta
        have := hg mn (by simp)
        omega
      · exact insertGo_dom v hdom hlast hg
    | cons am rest2 =>
      have hrel : mn.delta < am.g + am.delta := (List.chain'_cons.mp hdom).1
      have htail : DomCh (am :: rest2) := (List.chain'_cons.mp hdom).2
      rw [insertSamples]
      split
      · split
        · refine List.chain'_cons.mpr ⟨?_, ?_⟩
          · show mn.delta < am.g + 1 + am.delta
            omega
          · cases rest2 with
            | nil => simp [DomCh]
            | cons b rest3 =>
              exact List.chain'_cons.mpr ⟨(List.chain'_cons.mp htail).1,
                (List.chain'_cons.mp htail).2⟩
        · refine List.chain'_cons.mpr ⟨?_, hdom⟩
          show (0 : ℕ) < mn.g + mn.delta
          have := hg mn (by simp)
          omega
      · exact insertGo_dom v hdom hlast hg

lemma insertSamples_sorted {cap : ℕ} {v : α} {l : List (Sample α)}
    (hs : ValSorted l) : ValSorted (insertSamples cap v l) := by
  cases l with
  | nil => simp [insertSamples, ValSorted, Sample.exact]
  | cons mn rest =>
    cases rest with
    | nil =>
      rw [insertSamples]
      split
      · rename_i hlt
        refine List.pairwise_cons.mpr ⟨?_, by simp [ValSorted]⟩
        intro y hy
        simp at hy
        rw [hy]
        show v ≤ mn.value
        exact le_of_lt hlt
      · exact insertGo_sorted hs
    | cons am rest2 =>
      have hhead : ∀ y ∈ am :: rest2, mn.value ≤ y.value :=
        fun y hy => (List.pairwise_cons.mp hs).1 y hy
      have htail : ValSorted (am :: rest2) := (List.pairwise_cons.mp hs).2
      rw [insertSamples]
      split
      · rename_i hlt
        split
        · refine List.pairwise_cons.mpr ⟨?_, ?_⟩
          · intro y hy
            show v ≤ y.value
            rcases List.mem_cons.mp hy with h | h
            · rw [h]
              exact le_trans (le_of_lt hlt) (hhead am (by simp))
            · exact le_trans (le_of_lt hlt) (hhead y (by simp [h]))
          · refine List.pairwise_cons.mpr ⟨?_, (List.pairwise_cons.mp htail).2⟩
            intro y hy
            show am.value ≤ y.value
            exact (List.pairwise_cons.mp htail).1 y hy
        · refine List.pairwise_cons.mpr ⟨?_, hs⟩
          intro y hy
          show v ≤ y.value
          rcases List.mem_cons.mp hy with h | h
          · rw [h]
            exact le_of_lt hlt
          · exact le_trans (le_of_lt hlt) (hhead y (by simpa using h))
      · exact insertGo_sorted hs

lemma compressRun_sorted {cap : ℕ} {l : List (Sample α)} :
    ∀ t, ValSorted (t :: l) → ValSorted (compressRun cap t l) := by
  induction l with
  | nil => intro t _; simp [compressRun, ValSorted]
  | cons s rest ih =>
    intro t hs
    have hhead : ∀ y ∈ s :: rest, t.value ≤ y.value :=
      fun y hy => (List.pairwise_cons.mp hs).1 y hy
    have htail : ValSorted (s :: rest) := (List.pairwise_cons.mp hs).2
    rw [compressRun]
    split
    · refine ih _ ?_
      refine List.pairwise_cons.mpr ⟨?_, (List.pairwise_cons.mp htail).2⟩
      intro y hy
      show s.value ≤ y.value
      exact (List.pairwise_cons.mp htail).1 y hy
    · refine List.pairwise_cons.mpr ⟨?_, ih _ htail⟩
      intro y hy
      have := compressRun_value_mem s y hy
      simp at this
      rcases this with h | h
      · rw [h]
        exact hhead s (by simp)
      · obtain ⟨z, hz, hv⟩ := h
        rw [← hv]
        exact hhead z (by simp [hz])

/-! ### Arithmetic of the cap -/

lemma capAt_mono {eps : ℚ} (h : 0 ≤ eps) {m n : ℕ} (hmn : m ≤ n) :
    capAt eps m ≤ capAt eps n := by
  unfold capAt
  have : (2 : ℚ) * eps * m ≤ 2 * eps * n := by
    apply mul_le_mul_of_nonneg_left (by exact_mod_cast hmn)
    positivity
  have := Int.floor_le_floor this
  omega

lemma capAt_eps_mono {e1 e2 : ℚ} (h0 : 0 ≤ e1) (h : e1 ≤ e2) (n : ℕ) :
    capAt e1 n ≤ capAt e2 n := by
  unfold capAt
  have : (2 : ℚ) * e1 * n ≤ 2 * e2 * n := by
    apply mul_le_mul_of_nonneg_right _ (by positivity)
    linarith
  have := Int.floor_le_floor this
  omega

lemma capAt_superadd {eps : ℚ} (h : 0 ≤ eps) (m n : ℕ) :
    capAt eps m + capAt eps n ≤ capAt eps (m + n) := by
  unfold capAt
  have h1 : (0 : ℤ) ≤ ⌊(2 : ℚ) * eps * m⌋ := by
    apply Int.floor_nonneg.mpr
    positivity
  have h2 : (0 : ℤ) ≤ ⌊(2 : ℚ) * eps * n⌋ := by
    apply Int.floor_nonneg.mpr
    positivity
  have h3 : ⌊(2 : ℚ) * eps * m⌋ + ⌊(2 : ℚ) * eps * n⌋ ≤ ⌊(2 : ℚ) * eps * (m + n : ℕ)⌋ := by
    apply Int.le_floor.mpr
    push_cast
    have fm := Int.floor_le ((2 : ℚ) * eps * m)
    have fn := Int.floor_le ((2 : ℚ) * eps * n)
    nlinarith
  omega

lemma capAt_two_le_one {eps : ℚ} (h0 : 0 ≤ eps) (h : eps < 1/2) :
    capAt eps 2 ≤ 1 := by
  unfold capAt
  have : ⌊(2 : ℚ) * eps * (2 : ℕ)⌋ < 2 := by
    apply Int.floor_lt.mpr
    push_cast
    linarith
  omega

/-! ### Compression at the list level -/

lemma compressRec_ne_nil {cap : ℕ} {l : List (Sample α)} (h : l ≠ []) :
    compressRec cap l ≠ [] := by
  match l with
  | [] => exact absurd rfl h
  | [a] => simp [compressRec]
  | a :: s :: rest => simp [compressRec_cons_cons]

lemma compressRec_length2 {cap : ℕ} {l : List (Sample α)} (h : 2 ≤ l.length) :
    2 ≤ (compressRec cap l).length := by
  match l with
  | [] => simp at h
  | [a] => simp at h
  | a :: s :: rest =>
    rw [compressRec_cons_cons]
    have := compressRun_ne_nil cap s rest
    have := List.length_pos.mpr this
    simp
    omega

lemma compressRec_bound {M cap : ℕ} (hcap : cap ≤ M) {l : List (Sample α)}
    (hl : ∀ x ∈ l, x.g + x.delta ≤ M) :
    ∀ x ∈ compressRec cap l, x.g + x.delta ≤ M := by
  match l with
  | [] => simpa [compressRec] using hl
  | [a] => simpa [compressRec] using hl
  | a :: s :: rest =>
    rw [compressRec_cons_cons]
    intro x hx
    rcases List.mem_cons.mp hx with h | h
    · rw [h]; exact hl a (by simp)
    · exact compressRun_bound hcap s (hl s (by simp))
        (fun y hy => hl y (by simp [hy])) x h

lemma compressRec_gpos {cap : ℕ} {l : List (Sample α)}
    (hl : ∀ x ∈ l, 1 ≤ x.g) :
    ∀ x ∈ compressRec cap l, 1 ≤ x.g := by
  match l with
  | [] => simpa [compressRec] using hl
  | [a] => simpa [compressRec] using hl
  | a :: s :: rest =>
    rw [compressRec_cons_cons]
    intro x hx
    rcases List.mem_cons.mp hx with h | h
    · rw [h]; exact hl a (by simp)
    · exact compressRun_gpos s (hl s (by simp)) (fun y hy => hl y (by simp [hy])) x h

lemma compressRec_lastd {cap : ℕ} {l : List (Sample α)} (hl : LastD0 l) :
    LastD0 (compressRec cap l) := by
  match l with
  | [] => simpa [compressRec] using hl
  | [a] => simpa [compressRec] using hl
  | a :: s :: rest =>
    rw [compressRec_cons_cons]
    intro x hx
    rw [getLast?_cons_ne a (compressRun_ne_nil cap s rest)] at hx
    have hmap := @compressRun_getLast? _ _ cap rest s
    rw [hx] at hmap
    cases hrest : (s :: rest).getLast? with
    | none => simp [hrest] at hmap
    | some w =>
      rw [hrest] at hmap
      simp at hmap
      have hw : w.delta = 0 := hl w (by rw [List.getLast?_cons_cons]; exact hrest)
      omega

lemma compressRec_sorted {cap : ℕ} {l : List (Sample α)} (hl : ValSorted l) :
    ValSorted (compressRec cap l) := by
  match l with
  | [] => simpa [compressRec] using hl
  | [a] => simpa [compressRec] using hl
  | a :: s :: rest =>
    rw [compressRec_cons_cons]
    have hhead : ∀ y ∈ s :: rest, a.value ≤ y.value :=
      fun y hy => (List.pairwise_cons.mp hl).1 y hy
    have htail : ValSorted (s :: rest) := (List.pairwise_cons.mp hl).2
    refine List.pairwise_cons.mpr ⟨?_, compressRun_sorted s htail⟩
    intro y hy
    have := compressRun_value_mem s y hy
    simp at this
    rcases this with h | ⟨z, hz, hv⟩
    · rw [h]
      exact hhead s (by simp)
    · rw [← hv]
      exact hhead z (by simp [hz])

lemma compressSamples_bound_max {cap : ℕ} {l : List (Sample α)}
    (hl : ∀ x ∈ l, x.g + x.delta ≤ max 1 cap) :
    ∀ x ∈ compressSamples cap l, x.g + x.delta ≤ max 1 cap := by
  rw [compressSamples_eq_compressRec]
  exact compressRec_bound (le_max_right 1 cap) hl

/-! ### The merge loop -/

lemma lastd_tail {x : Sample α} {t : List (Sample α)} (h : LastD0 (x :: t)) :
    LastD0 t := by
  intro y hy
  apply h y
  cases t with
  | nil => simp at hy
  | cons b m => rw [List.getLast?_cons_cons]; exact hy

lemma pushList_cons (c : SamplesCompressor α) (x : Sample α) (l : List (Sample α)) :
    c.pushList (x :: l) = (c.push x).pushList l := rfl

lemma mergeLoop_eq_pushes (a b : List (Sample α)) :
    ∀ c : SamplesCompressor α, mergeLoop c a b = c.pushList (mergePushes a b) := by
  induction a, b using mergePushes.induct with
  | case1 other => intro c; rw [mergeLoop, mergePushes]
  | case2 sp ss => intro c; rw [mergeLoop, mergePushes]
  | case3 sp ss op os h ih =>
    intro c
    rw [mergeLoop, mergePushes, if_pos h, if_pos h, pushList_cons, ih]
  | case4 sp ss op os h ih =>
    intro c
    rw [mergeLoop, mergePushes, if_neg h, if_neg h, pushList_cons, ih]

lemma mergePushes_length (a b : List (Sample α)) :
    (mergePushes a b).length = a.length + b.length := by
  induction a, b using mergePushes.induct with
  | case1 other => rw [mergePushes]; simp
  | case2 sp ss => rw [mergePushes]; simp
  | case3 sp ss op os h ih => rw [mergePushes, if_pos h]; simp at ih ⊢; omega
  | case4 sp ss op os h ih => rw [mergePushes, if_neg h]; simp at ih ⊢; omega

lemma mergePushes_ne_nil {a b : List (Sample α)} (h : a ≠ [] ∨ b ≠ []) :
    mergePushes a b ≠ [] := by
  have hl := mergePushes_length a b
  intro hc
  rw [hc] at hl
  simp at hl
  rcases h with h | h
  · exact h (List.length_eq_zero.mp (by omega))
  · exact h (List.length_eq_zero.mp (by omega))

lemma sumG_mergePushes (a b : List (Sample α)) :
    sumG (mergePushes a b) = sumG a + sumG b := by
  induction a, b using mergePushes.induct with
  | case1 other => rw [mergePushes]; simp [sumG]
  | case2 sp ss => rw [mergePushes]; simp [sumG]
  | case3 sp ss op os h ih =>
    rw [mergePushes, if_pos h]
    simp only [sumG, List.map_cons, List.sum_cons] at ih ⊢
    omega
  | case4 sp ss op os h ih =>
    rw [mergePushes, if_neg h]
    simp only [sumG, List.map_cons, List.sum_cons] at ih ⊢
    omega

lemma mergePushes_gpos (a b : List (Sample α)) :
    (∀ x ∈ a, 1 ≤ x.g) → (∀ x ∈ b, 1 ≤ x.g) →
      ∀ x ∈ mergePushes a b, 1 ≤ x.g := by
  induction a, b using mergePushes.induct with
  | case1 other => intro _ hb; rw [mergePushes]; exact hb
  | case2 sp ss => intro ha _; rw [mergePushes]; exact ha
  | case3 sp ss op os h ih =>
    intro ha hb x hx
    rw [mergePushes, if_pos h] at hx
    rcases List.mem_cons.mp hx with h2 | h2
    · rw [h2]
      show 1 ≤ sp.g
      exact ha sp (by simp)
    · exact ih (fun y hy => ha y (by simp [hy])) hb x h2
  | case4 sp ss op os h ih =>
    intro ha hb x hx
    rw [mergePushes, if_neg h] at hx
    rcases List.mem_cons.mp hx with h2 | h2
    · rw [h2]
      show 1 ≤ op.g
      exact hb op (by simp)
    · exact ih ha (fun y hy => hb y (by simp [hy])) x h2

lemma mergePushes_value_mem (a b : List (Sample α)) :
    ∀ x ∈ mergePushes a b,
      (∃ y ∈ a, x.value = y.value) ∨ ∃ y ∈ b, x.value = y.value := by
  induction a, b using mergePushes.induct with
  | case1 other =>
    intro x hx
    rw [mergePushes] at hx
    exact Or.inr ⟨x, hx, rfl⟩
  | case2 sp ss =>
    intro x hx
    rw [mergePushes] at hx
    exact Or.inl ⟨x, hx, rfl⟩
  | case3 sp ss op os h ih =>
    intro x hx
    rw [mergePushes, if_pos h] at hx
    rcases List.mem_cons.mp hx with h2 | h2
    · exact Or.inl ⟨sp, by simp, by rw [h2]⟩
    · rcases ih x h2 with ⟨y, hy, hv⟩ | ⟨y, hy, hv⟩
      · exact Or.inl ⟨y, by simp [hy], hv⟩
      · exact Or.inr ⟨y, hy, hv⟩
  | case4 sp ss op os h ih =>
    intro x hx
    rw [mergePushes, if_neg h] at hx
    rcases List.mem_cons.mp hx with h2 | h2
    · exact Or.inr ⟨op, by simp, by rw [h2]⟩
    · rcases ih x h2 with ⟨y, hy, hv⟩ | ⟨y, hy, hv⟩
      · exact Or.inl ⟨y, hy, hv⟩
      · exact Or.inr ⟨y, by simp [hy], hv⟩

lemma mergePushes_bound {Ma Mb : ℕ} (hMa : 1 ≤ Ma) (hMb : 1 ≤ Mb)
    (a b : List (Sample α)) :
    (∀ x ∈ a, x.g + x.delta ≤ Ma) → (∀ x ∈ b, x.g + x.delta ≤ Mb) →
      ∀ x ∈ mergePushes a b, x.g + x.delta ≤ Ma + Mb - 1 := by
  induction a, b using mergePushes.induct with
  | case1 other =>
    intro _ hb x hx
    rw [mergePushes] at hx
    have := hb x hx
    omega
  | case2 sp ss =>
    intro ha _ x hx
    rw [mergePushes] at hx
    have := ha x hx
    omega
  | case3 sp ss op os h ih =>
    intro ha hb x hx
    rw [mergePushes, if_pos h] at hx
    rcases List.mem_cons.mp hx with h2 | h2
    · rw [h2]
      show sp.g + (sp.delta + aditionalDelta (op :: os)) ≤ Ma + Mb - 1
      have h3 := ha sp (by simp)
      have h4 := hb op (by simp)
      show sp.g + (sp.delta + (op.delta + op.g - 1)) ≤ Ma + Mb - 1
      omega
    · exact ih (fun y hy => ha y (by simp [hy])) hb x h2
  | case4 sp ss op os h ih =>
    intro ha hb x hx
    rw [mergePushes, if_neg h] at hx
    rcases List.mem_cons.mp hx with h2 | h2
    · rw [h2]
      show op.g + (op.delta + (sp.delta + sp.g - 1)) ≤ Ma + Mb - 1
      have h3 := ha sp (by simp)
      have h4 := hb op (by simp)
      omega
    · exact ih ha (fun y hy => hb y (by simp [hy])) x h2

lemma mergePushes_lastd (a b : List (Sample α)) :
    LastD0 a → LastD0 b → LastD0 (mergePushes a b) := by
  induction a, b using mergePushes.induct with
  | case1 other => intro _ hb; rw [mergePushes]; exact hb
  | case2 sp ss => intro ha _; rw [mergePushes]; exact ha
  | case3 sp ss op os h ih =>
    intro ha hb x hx
    rw [mergePushes, if_pos h] at hx
    rw [getLast?_cons_ne _ (mergePushes_ne_nil (Or.inr (by simp)))] at hx
    exact ih (lastd_tail ha) hb x hx
  | case4 sp ss op os h ih =>
    intro ha hb x hx
    rw [mergePushes, if_neg h] at hx
    rw [getLast?_cons_ne _ (mergePushes_ne_nil (Or.inl (by simp)))] at hx
    exact ih ha (lastd_tail hb) x hx

lemma mergePushes_dom (a b : List (Sample α)) :
    DomCh a → DomCh b → LastD0 a → LastD0 b → (∀ x ∈ a, 1 ≤ x.g) →
      (∀ x ∈ b, 1 ≤ x.g) → DomCh (mergePushes a b) := by
  induction a, b using mergePushes.induct with
  | case1 other => intro _ db _ _ _ _; rw [mergePushes]; exact db
  | case2 sp ss => intro da _ _ _ _ _; rw [mergePushes]; exact da
  | case3 sp ss op os h ih =>
    intro da db la lb ga gb
    rw [mergePushes, if_pos h]
    refine List.chain'_cons'.mpr ⟨?_, ih da.tail db (lastd_tail la) lb
      (fun y hy => ga y (by simp [hy])) gb⟩
    intro hd hhd
    cases ss with
    | nil =>
      rw [mergePushes] at hhd
      simp at hhd
      rw [← hhd]
      have hsp : sp.delta = 0 := la sp rfl
      have hopg := gb op (by simp)
      show sp.delta + (op.delta + op.g - 1) < op.g + op.delta
      omega
    | cons s2 ss2 =>
      have hrel : sp.delta < s2.g + s2.delta := (List.chain'_cons.mp da).1
      rw [mergePushes] at hhd
      split at hhd
      · simp at hhd
        rw [← hhd]
        show sp.delta + (op.delta + op.g - 1) <
          s2.g + (s2.delta + (op.delta + op.g - 1))
        omega
      · simp at hhd
        rw [← hhd]
        have hopg := gb op (by simp)
        have hs2g := ga s2 (by simp)
        show sp.delta + (op.delta + op.g - 1) <
          op.g + (op.delta + (s2.delta + s2.g - 1))
        omega
  | case4 sp ss op os h ih =>
    intro da db la lb ga gb
    rw [mergePushes, if_neg h]
    refine List.chain'_cons'.mpr ⟨?_, ih da db.tail la (lastd_tail lb) ga
      (fun y hy => gb y (by simp [hy]))⟩
    intro hd hhd
    cases os with
    | nil =>
      rw [mergePushes] at hhd
      simp at hhd
      rw [← hhd]
      have hop : op.delta = 0 := lb op rfl
      have hspg := ga sp (by simp)
      show op.delta + (sp.delta + sp.g - 1) < sp.g + sp.delta
      omega
    | cons o2 os2 =>
      have hrel : op.delta < o2.g + o2.delta := (List.chain'_cons.mp db).1
      rw [mergePushes] at hhd
      split at hhd
      · simp at hhd
        rw [← hhd]
        have hspg := ga sp (by simp)
        have ho2g := gb o2 (by simp)
        show op.delta + (sp.delta + sp.g - 1) <
          sp.g + (sp.delta + (o2.delta + o2.g - 1))
        omega
      · simp at hhd
        rw [← hhd]
        show op.delta + (sp.delta + sp.g - 1) <
          o2.g + (o2.delta + (sp.delta + sp.g - 1))
        omega

lemma mergePushes_chain_sorted (a b : List (Sample α)) :
    ValSorted a → ValSorted b →
      (mergePushes a b).Chain' (fun x y => x.value ≤ y.value) := by
  induction a, b using mergePushes.induct with
  | case1 other =>
    intro _ sb
    rw [mergePushes]
    exact List.Pairwise.chain' sb
  | case2 sp ss =>
    intro sa _
    rw [mergePushes]
    exact List.Pairwise.chain' sa
  | case3 sp ss op os h ih =>
    intro sa sb
    rw [mergePushes, if_pos h]
    refine List.chain'_cons'.mpr ⟨?_, ih ((List.pairwise_cons.mp sa).2) sb⟩
    intro hd hhd
    cases ss with
    | nil =>
      rw [mergePushes] at hhd
      simp at hhd
      rw [← hhd]
      show sp.value ≤ op.value
      exact le_of_lt h
    | cons s2 ss2 =>
      rw [mergePushes] at hhd
      split at hhd
      · simp at hhd
        rw [← hhd]
        show sp.value ≤ s2.value
        exact (List.pairwise_cons.mp sa).1 s2 (by simp)
      · simp at hhd
        rw [← hhd]
        show sp.value ≤ op.value
        exact le_of_lt h
  | case4 sp ss op os h ih =>
    intro sa sb
    rw [mergePushes, if_neg h]
    refine List.chain'_cons'.mpr ⟨?_, ih sa ((List.pairwise_cons.mp sb).2)⟩
    intro hd hhd
    cases os with
    | nil =>
      rw [mergePushes] at hhd
      simp at hhd
      rw [← hhd]
      show op.value ≤ sp.value
      exact le_of_not_lt h
    | cons o2 os2 =>
      rw [mergePushes] at hhd
      split at hhd
      · simp at hhd
        rw [← hhd]
        show op.value ≤ sp.value
        exact le_of_not_lt h
      · simp at hhd
        rw [← hhd]
        show op.value ≤ o2.value
        exact (List.pairwise_cons.mp sb).1 o2 (by simp)

lemma mergePushes_sorted (a b : List (Sample α)) (sa : ValSorted a)
    (sb : ValSorted b) : ValSorted (mergePushes a b) := by
  haveI : IsTrans (Sample α) (fun x y => x.value ≤ y.value) :=
    ⟨fun _ _ _ h1 h2 => le_trans h1 h2⟩
  exact List.chain'_iff_pairwise.mp (mergePushes_chain_sorted a b sa sb)

lemma mergePushes_covers (a b : List (Sample α)) :
    ∀ y ∈ a ++ b, ∃ z ∈ mergePushes a b, z.value = y.value := by
  induction a, b using mergePushes.induct with
  | case1 other =>
    intro y hy
    rw [mergePushes]
    simp at hy
    exact ⟨y, hy, rfl⟩
  | case2 sp ss =>
    intro y hy
    rw [mergePushes]
    simp at hy
    exact ⟨y, by simp [hy], rfl⟩
  | case3 sp ss op os h ih =>
    intro y hy
    rw [mergePushes, if_pos h]
    rcases List.mem_append.mp hy with hy2 | hy2
    · rcases List.mem_cons.mp hy2 with h3 | h3
      · exact ⟨{ sp with delta := sp.delta + aditionalDelta (op :: os) },
          by simp, by rw [h3]⟩
      · obtain ⟨z, hz, hv⟩ := ih y (List.mem_append.mpr (Or.inl h3))
        exact ⟨z, by simp [hz], hv⟩
    · obtain ⟨z, hz, hv⟩ := ih y (List.mem_append.mpr (Or.inr hy2))
      exact ⟨z, by simp [hz], hv⟩
  | case4 sp ss op os h ih =>
    intro y hy
    rw [mergePushes, if_neg h]
    rcases List.mem_append.mp hy with hy2 | hy2
    · obtain ⟨z, hz, hv⟩ := ih y (List.mem_append.mpr (Or.inl hy2))
      exact ⟨z, by simp [hz], hv⟩
    · rcases List.mem_cons.mp hy2 with h3 | h3
      · exact ⟨{ op with delta := op.delta + aditionalDelta (sp :: ss) },
          by simp, by rw [h3]⟩
      · obtain ⟨z, hz, hv⟩ := ih y (List.mem_append.mpr (Or.inr h3))
        exact ⟨z, by simp [hz], hv⟩

lemma mem_of_getLast?_eq {l : List (Sample α)} {x : Sample α}
    (h : l.getLast? = some x) : x ∈ l := by
  induction l with
  | nil => simp at h
  | cons a t ih =>
    cases t with
    | nil => simp at h; simp [h]
    | cons b t2 =>
      rw [List.getLast?_cons_cons] at h
      exact List.mem_cons_of_mem _ (ih h)

lemma sorted_le_last {l : List (Sample α)} (hs : ValSorted l) :
    ∀ x, l.getLast? = some x → ∀ z ∈ l, z.value ≤ x.value := by
  induction l with
  | nil => intro x hx; simp at hx
  | cons a t ih =>
    intro x hx z hz
    cases t with
    | nil =>
      simp at hx hz
      rw [hx] at hz
      rw [hz]
    | cons b t2 =>
      rw [List.getLast?_cons_cons] at hx
      rcases List.mem_cons.mp hz with h | h
      · have hxm : x ∈ b :: t2 := by
          cases hlast : (b :: t2).getLast? with
          | none => simp at hlast
          | some w =>
            rw [hlast] at hx
            injection hx with hx2
            subst hx2
            exact mem_of_getLast?_eq hlast
        rw [h]
        exact (List.pairwise_cons.mp hs).1 x hxm
      · exact ih (List.pairwise_cons.mp hs).2 x hx z h

/-! ### Invariant preservation -/

lemma SInv.compress_pres {s : Summary α} (h : SInv s) : SInv s.compress := by
  obtain ⟨hb, hg, hl, hd, hs, hsum, he0, he1⟩ := h
  have hrec : (s.compress).samples = compressRec s.maxGDelta s.samples := by
    simp [Summary.compress, compressSamples_eq_compressRec]
  have hmg : s.compress.maxGDelta = s.maxGDelta := rfl
  constructor
  · intro x hx
    rw [hrec] at hx
    rw [hmg]
    exact compressRec_bound (le_max_right 1 s.maxGDelta) hb x hx
  · intro x hx
    rw [hrec] at hx
    exact compressRec_gpos hg x hx
  · rw [hrec]
    exact compressRec_lastd hl
  · rw [hrec]
    exact compressRec_dom hd
  · rw [hrec]
    exact compressRec_sorted hs
  · rw [hrec]
    show sumG _ = s.len
    rw [sumG_compressRec, hsum]
  · exact he0
  · exact he1

lemma SInv.insertOne_pres {s : Summary α} (h : SInv s) (v : α) :
    SInv (s.insertOne v) := by
  have h2 : SInv (Summary.mk
      (insertSamples (capAt s.maxExpectedError (s.len + 1)) v s.samples)
      s.maxSamples s.maxExpectedError (s.len + 1)) := by
    obtain ⟨hb, hg, hl, hd, hs, hsum, he0, he1⟩ := h
    have hcapm : capAt s.maxExpectedError s.len ≤ capAt s.maxExpectedError (s.len + 1) :=
      capAt_mono he0.le (Nat.le_succ _)
    have hb2 : ∀ x ∈ s.samples,
        x.g + x.delta ≤ max 1 (capAt s.maxExpectedError (s.len + 1)) := by
      intro x hx
      have := hb x hx
      simp only [Summary.maxGDelta] at this
      omega
    constructor
    · intro x hx
      show x.g + x.delta ≤ max 1 (capAt s.maxExpectedError (s.len + 1))
      exact insertSamples_bound (le_max_right _ _) (le_max_left _ _) v hb2 hl x hx
    · exact insertSamples_gpos v hg
    · exact insertSamples_lastd v hl
    · exact insertSamples_dom v hd hl hg
    · exact insertSamples_sorted hs
    · show sumG _ = s.len + 1
      rw [sumG_insertSamples, hsum]
    · exact he0
    · exact he1
  show SInv (if _ then _ else _)
  split
  · exact h2.compress_pres
  · exact h2

lemma SInv.mergeSorted_pres {s t : Summary α} (hsI : SInv s) (htI : SInv t)
    (heps : t.maxExpectedError ≤ s.maxExpectedError) :
    SInv (s.mergeSortedSamples t.samples t.len) := by
  have hkey : (s.mergeSortedSamples t.samples t.len).samples =
      compressRec (capAt s.maxExpectedError (s.len + t.len))
        (mergePushes s.samples t.samples) := by
    show (mergeLoop (SamplesCompressor.new _) s.samples t.samples).intoSamples = _
    rw [mergeLoop_eq_pushes]
    show compressSamples _ _ = _
    rw [compressSamples_eq_compressRec]
    rfl
  have ha : ∀ x ∈ s.samples,
      x.g + x.delta ≤ max 1 (capAt s.maxExpectedError s.len) := hsI.bound
  have hbb : ∀ x ∈ t.samples,
      x.g + x.delta ≤ max 1 (capAt t.maxExpectedError t.len) := htI.bound
  have hpush := mergePushes_bound (le_max_left 1 (capAt s.maxExpectedError s.len))
    (le_max_left 1 (capAt t.maxExpectedError t.len)) s.samples t.samples ha hbb
  have h1 : capAt t.maxExpectedError t.len ≤ capAt s.maxExpectedError t.len :=
    capAt_eps_mono htI.epos.le heps t.len
  have h2 : capAt s.maxExpectedError s.len + capAt s.maxExpectedError t.len ≤
      capAt s.maxExpectedError (s.len + t.len) :=
    capAt_superadd hsI.epos.le s.len t.len
  have hpush2 : ∀ x ∈ mergePushes s.samples t.samples,
      x.g + x.delta ≤ max 1 (capAt s.maxExpectedError (s.len + t.len)) := by
    intro x hx
    have := hpush x hx
    omega
  constructor
  · intro x hx
    rw [hkey] at hx
    show x.g + x.delta ≤ max 1 (capAt s.maxExpectedError (s.len + t.len))
    exact compressRec_bound (le_max_right _ _) hpush2 x hx
  · intro x hx
    rw [hkey] at hx
    exact compressRec_gpos (mergePushes_gpos _ _ hsI.gpos htI.gpos) x hx
  · rw [hkey]
    exact compressRec_lastd (mergePushes_lastd _ _ hsI.lastd htI.lastd)
  · rw [hkey]
    exact compressRec_dom (mergePushes_dom _ _ hsI.dom htI.dom hsI.lastd htI.lastd
      hsI.gpos htI.gpos)
  · rw [hkey]
    exact compressRec_sorted (mergePushes_sorted _ _ hsI.sorted htI.sorted)
  · rw [hkey]
    show sumG _ = s.len + t.len
    rw [sumG_compressRec, sumG_mergePushes, hsI.sumg, htI.sumg]
  · exact hsI.epos
  · exact hsI.elt1

lemma sinv_new {eps : ℚ} (h0 : 0 < eps) (h1 : eps < 1) :
    SInv (Summary.new (α := α) eps) := by
  constructor <;>
    simp [Summary.new, LastD0, DomCh, ValSorted, sumG, h0, h1]

lemma sinv_reachable {vs : Multiset α} {s : Summary α} (h : Reachable vs s) :
    SInv s := by
  induction h with
  | new eps h0 h1 => exact sinv_new h0 h1
  | insertOne h v ih => exact ih.insertOne_pres v
  | compress h ih => exact ih.compress_pres
  | merge h h2 heps ih ih2 => exact ih.mergeSorted_pres ih2 heps

lemma reachable_len {vs : Multiset α} {s : Summary α} (h : Reachable vs s) :
    s.len = Multiset.card vs := by
  induction h with
  | new eps h0 h1 => simp [Summary.new]
  | insertOne h v ih =>
    simp only [Summary.insertOne]
    split
    · simp [Summary.compress, ih]
    · simp [ih]
  | compress h ih => simpa [Summary.compress] using ih
  | merge h h2 heps ih ih2 => simp [Summary.mergeSortedSamples, ih, ih2]

/-! ### Head, last and value tracking through the operations -/

lemma mergePushes_nil_right (a : List (Sample α)) : mergePushes a [] = a := by
  cases a <;> rw [mergePushes]

lemma compressRec_cons_head (cap : ℕ) (x : Sample α) (t : List (Sample α)) :
    ∃ r, compressRec cap (x :: t) = x :: r := by
  cases t with
  | nil => exact ⟨[], rfl⟩
  | cons s r2 => exact ⟨_, compressRec_cons_cons cap x s r2⟩

lemma compressRec_value_mem {cap : ℕ} {l : List (Sample α)} :
    ∀ x ∈ compressRec cap l, ∃ y ∈ l, x.value = y.value := by
  match l with
  | [] => simp [compressRec]
  | [a] =>
    intro x hx
    simp [compressRec] at hx
    exact ⟨a, by simp, by rw [hx]⟩
  | a :: s :: rest =>
    rw [compressRec_cons_cons]
    intro x hx
    rcases List.mem_cons.mp hx with h | h
    · exact ⟨a, by simp, by rw [h]⟩
    · have := compressRun_value_mem s x h
      simp at this
      rcases this with h2 | ⟨z, hz, hv⟩
      · exact ⟨s, by simp, h2⟩
      · exact ⟨z, by simp [hz], hv.symm⟩

lemma compressRec_getLast? {cap : ℕ} {l : List (Sample α)} :
    (compressRec cap l).getLast?.map (fun x => (x.value, x.delta)) =
      l.getLast?.map (fun x => (x.value, x.delta)) := by
  match l with
  | [] => simp [compressRec]
  | [a] => simp [compressRec]
  | a :: s :: rest =>
    rw [compressRec_cons_cons,
      getLast?_cons_ne a (compressRun_ne_nil cap s rest),
      compressRun_getLast?, List.getLast?_cons_cons]

lemma insertSamples_value_mem (cap : ℕ) (v : α) (l : List (Sample α)) :
    ∀ x ∈ insertSamples cap v l, x.value = v ∨ ∃ y ∈ l, x.value = y.value := by
  cases l with
  | nil =>
    intro x hx
    simp [insertSamples, Sample.exact] at hx
    simp [hx]
  | cons mn rest =>
    cases rest with
    | nil =>
      intro x hx
      rw [insertSamples] at hx
      split at hx
      · simp [Sample.exact] at hx
        rcases hx with h | h
        · simp [h]
        · exact Or.inr ⟨mn, by simp, by rw [h]⟩
      · exact insertGo_value_mem cap v [mn] x hx
    | cons am rest2 =>
      intro x hx
      rw [insertSamples] at hx
      split at hx
      · split at hx
        · rcases List.mem_cons.mp hx with h | h
          · simp [h]
          · rcases List.mem_cons.mp h with h2 | h2
            · exact Or.inr ⟨am, by simp, by rw [h2]⟩
            · exact Or.inr ⟨x, by simp [h2], rfl⟩
        · simp [Sample.exact] at hx
          rcases hx with h | h | h | h
          · simp [h]
          · exact Or.inr ⟨mn, by simp, by rw [h]⟩
          · exact Or.inr ⟨am, by simp, by rw [h]⟩
          · exact Or.inr ⟨x, by simp [h], rfl⟩
      · exact insertGo_value_mem cap v (mn :: am :: rest2) x hx


lemma insertGo_getLast {cap : ℕ} {v : α} {l : List (Sample α)} (hs : ValSorted l)
    (hne : l ≠ []) :
    ∃ x y, (insertGo cap v l).getLast? = some x ∧ l.getLast? = some y ∧
      ((x.value = y.value ∧ v ≤ y.value) ∨ (x.value = v ∧ y.value ≤ v)) := by
  induction l with
  | nil => exact absurd rfl hne
  | cons s ls ih =>
    cases ls with
    | nil =>
      rw [insertGo]
      split
      · split
        · exact ⟨{ s with g := s.g + 1 }, s, by simp, by simp,
            Or.inl ⟨rfl, le_of_lt (by assumption)⟩⟩
        · exact ⟨s, s, by simp, by simp, Or.inl ⟨rfl, le_of_lt (by assumption)⟩⟩
      · split
        · exact ⟨{ s with value := v, g := s.g + 1 }, s, by simp, by simp,
            Or.inr ⟨rfl, le_of_not_lt (by assumption)⟩⟩
        · exact ⟨Sample.exact v, s, by simp, by simp,
            Or.inr ⟨rfl, le_of_not_lt (by assumption)⟩⟩
    | cons s2 rest =>
      rw [insertGo]
      split
      · obtain ⟨y, hy⟩ : ∃ y, (s2 :: rest).getLast? = some y := by
          cases h : (s2 :: rest).getLast? with
          | none => simp at h
          | some w => exact ⟨w, rfl⟩
        have hsy : v ≤ y.value := by
          have hmem := mem_of_getLast?_eq hy
          have h2 := (List.pairwise_cons.mp hs).1 y hmem
          exact le_trans (le_of_lt (by assumption)) h2
        split
        · exact ⟨y, y, by rw [List.getLast?_cons_cons]; exact hy,
            by rw [List.getLast?_cons_cons]; exact hy, Or.inl ⟨rfl, hsy⟩⟩
        · exact ⟨y, y,
            by rw [List.getLast?_cons_cons, List.getLast?_cons_cons]; exact hy,
            by rw [List.getLast?_cons_cons]; exact hy, Or.inl ⟨rfl, hsy⟩⟩
      · obtain ⟨x, y, hx, hy, hcase⟩ := ih (List.pairwise_cons.mp hs).2 (by simp)
        exact ⟨x, y,
          by rw [getLast?_cons_ne s (insertGo_ne_nil cap v (s2 :: rest))]; exact hx,
          by rw [List.getLast?_cons_cons]; exact hy, hcase⟩

lemma insertSamples_getLast {cap : ℕ} {v : α} {l : List (Sample α)}
    (hs : ValSorted l) (hne : l ≠ []) :
    ∃ x y, (insertSamples cap v l).getLast? = some x ∧ l.getLast? = some y ∧
      ((x.value = y.value ∧ v ≤ y.value) ∨ (x.value = v ∧ y.value ≤ v)) := by
  cases l with
  | nil => exact absurd rfl hne
  | cons mn rest =>
    cases rest with
    | nil =>
      rw [insertSamples]
      split
      · exact ⟨mn, mn, by simp, by simp, Or.inl ⟨rfl, le_of_lt (by assumption)⟩⟩
      · exact insertGo_getLast hs (by simp)
    | cons am rest2 =>
      rw [insertSamples]
      split
      · have hvmn : v < mn.value := by assumption
        obtain ⟨y, hy⟩ : ∃ y, (am :: rest2).getLast? = some y := by
          cases h : (am :: rest2).getLast? with
          | none => simp at h
          | some w => exact ⟨w, rfl⟩
        have hvy : v ≤ y.value := by
          have hmem := mem_of_getLast?_eq hy
          have h2 := (List.pairwise_cons.mp hs).1 y (by simp [hmem])
          exact le_trans (le_of_lt hvmn) h2
        split
        · cases rest2 with
          | nil =>
            have hyam : y = am := by simp at hy; rw [hy]
            refine ⟨{ am with g := am.g + 1 }, y, by simp,
              by rw [List.getLast?_cons_cons]; exact hy, Or.inl ⟨?_, hvy⟩⟩
            rw [hyam]
          | cons b r3 =>
            exact ⟨y, y,
              by rw [List.getLast?_cons_cons, List.getLast?_cons_cons]; exact hy,
              by rw [List.getLast?_cons_cons]; exact hy, Or.inl ⟨rfl, hvy⟩⟩
        · exact ⟨y, y,
            by rw [List.getLast?_cons_cons, List.getLast?_cons_cons]; exact hy,
            by rw [List.getLast?_cons_cons]; exact hy, Or.inl ⟨rfl, hvy⟩⟩
      · exact insertGo_getLast hs (by simp)

lemma insertSamples_head_lt {cap : ℕ} {v m : α} {t : List (Sample α)}
    (h : v < m) :
    ∃ r, insertSamples cap v (⟨m, 1, 0⟩ :: t) = ⟨v, 1, 0⟩ :: r := by
  cases t with
  | nil =>
    rw [insertSamples, if_pos (show v < (Sample.mk m 1 0).value from h)]
    exact ⟨[⟨m, 1, 0⟩], rfl⟩
  | cons am rest2 =>
    rw [insertSamples, if_pos (show v < (Sample.mk m 1 0).value from h)]
    split
    · exact ⟨_, rfl⟩
    · exact ⟨_, rfl⟩

lemma insertSamples_head_ge {cap : ℕ} {v m : α} {t : List (Sample α)}
    (h : ¬ v < m) (hcap : t = [] → cap ≤ 1) :
    ∃ r, insertSamples cap v (⟨m, 1, 0⟩ :: t) = ⟨m, 1, 0⟩ :: r := by
  cases t with
  | nil =>
    rw [insertSamples, if_neg (show ¬ v < (Sample.mk m 1 0).value from h),
      insertGo, if_neg (show ¬ v < (Sample.mk m 1 0).value from h),
      if_neg (show ¬ ((Sample.mk m 1 0).g + 1 ≤ cap) by
        have := hcap rfl; simp; omega)]
    exact ⟨[Sample.exact v], rfl⟩
  | cons s2 rest =>
    rw [insertSamples, if_neg (show ¬ v < (Sample.mk m 1 0).value from h),
      insertGo, if_neg (show ¬ v < (Sample.mk m 1 0).value from h)]
    exact ⟨_, rfl⟩

lemma getLast?_isSome_of_ne_nil {l : List (Sample α)} (h : l ≠ []) :
    ∃ x, l.getLast? = some x := by
  cases l with
  | nil => exact absurd rfl h
  | cons a t =>
    cases hx : (a :: t).getLast? with
    | none => simp at hx
    | some w => exact ⟨w, rfl⟩

lemma compressRec_getLast_value {cap : ℕ} {l : List (Sample α)} {y : Sample α}
    (hy : l.getLast? = some y) :
    ∃ x, (compressRec cap l).getLast? = some x ∧ x.value = y.value := by
  have h := @compressRec_getLast? _ _ cap l
  rw [hy] at h
  cases hx : (compressRec cap l).getLast? with
  | none => rw [hx] at h; simp at h
  | some w =>
    rw [hx] at h
    simp at h
    exact ⟨w, rfl, h.1⟩

lemma mergePushes_head_exact (ma mb : α) (ta tb : List (Sample α)) :
    (ma < mb → ∃ r, mergePushes (⟨ma, 1, 0⟩ :: ta) (⟨mb, 1, 0⟩ :: tb) =
      ⟨ma, 1, 0⟩ :: r) ∧
    (¬ ma < mb → ∃ r, mergePushes (⟨ma, 1, 0⟩ :: ta) (⟨mb, 1, 0⟩ :: tb) =
      ⟨mb, 1, 0⟩ :: r) := by
  constructor
  · intro h
    rw [mergePushes,
      if_pos (show (Sample.mk ma 1 0).value < (Sample.mk mb 1 0).value from h)]
    exact ⟨_, rfl⟩
  · intro h
    rw [mergePushes,
      if_neg (show ¬ (Sample.mk ma 1 0).value < (Sample.mk mb 1 0).value from h)]
    exact ⟨_, rfl⟩

lemma compress_eps (s : Summary α) :
    s.compress.maxExpectedError = s.maxExpectedError := rfl

lemma insertOne_eps (s : Summary α) (v : α) :
    (s.insertOne v).maxExpectedError = s.maxExpectedError := by
  simp only [Summary.insertOne]
  split <;> rfl

lemma mergeSorted_eps (s : Summary α) (os : List (Sample α)) (ol : ℕ) :
    (s.mergeSortedSamples os ol).maxExpectedError = s.maxExpectedError := rfl

lemma compress_samples_eq (s : Summary α) :
    s.compress.samples = compressRec s.maxGDelta s.samples := by
  simp [Summary.compress, compressSamples_eq_compressRec]

lemma insertOne_samples (s : Summary α) (v : α) :
    (s.insertOne v).samples =
      insertSamples (capAt s.maxExpectedError (s.len + 1)) v s.samples ∨
    (s.insertOne v).samples = compressRec (capAt s.maxExpectedError (s.len + 1))
      (insertSamples (capAt s.maxExpectedError (s.len + 1)) v s.samples) := by
  simp only [Summary.insertOne]
  split
  · right
    rw [compress_samples_eq]
    rfl
  · left
    rfl

lemma mergeSorted_samples_eq (s : Summary α) (os : List (Sample α)) (ol : ℕ) :
    (s.mergeSortedSamples os ol).samples =
      compressRec (capAt s.maxExpectedError (s.len + ol))
        (mergePushes s.samples os) := by
  show (mergeLoop _ _ _).intoSamples = _
  rw [mergeLoop_eq_pushes]
  show compressSamples _ _ = _
  rw [compressSamples_eq_compressRec]
  rfl

lemma reachable_empty {vs : Multiset α} {s : Summary α} (h : Reachable vs s)
    (hvs : vs = 0) : s.samples = [] := by
  have hS := sinv_reachable h
  have hlen := reachable_len h
  rw [hvs] at hlen
  simp at hlen
  have hsum := hS.sumg
  cases hsam : s.samples with
  | nil => rfl
  | cons a tl =>
    have hg := hS.gpos a (by rw [hsam]; simp)
    rw [hsam] at hsum
    simp [sumG] at hsum
    omega

lemma QList.compressRec_pres {vs : Multiset α} {l : List (Sample α)}
    (h : QList vs l) (cap : ℕ) : QList vs (compressRec cap l) := by
  refine ⟨?_, ?_, ?_⟩
  · intro x hx
    obtain ⟨y, hy, hv⟩ := compressRec_value_mem x hx
    rw [hv]
    exact h.valmem y hy
  · intro hvs
    obtain ⟨m, t, hl, hmin⟩ := h.head hvs
    rw [hl]
    obtain ⟨r, hr⟩ := compressRec_cons_head cap ⟨m, 1, 0⟩ t
    exact ⟨m, r, hr, hmin⟩
  · intro hvs
    obtain ⟨x, hx, hmax⟩ := h.last hvs
    obtain ⟨x2, hx2, hv⟩ := @compressRec_getLast_value _ _ cap _ _ hx
    refine ⟨x2, hx2, ?_⟩
    intro y hy
    rw [hv]
    exact hmax y hy

lemma QList.insertSamples_pres {vs : Multiset α} {l : List (Sample α)} {cap : ℕ}
    (h : QList vs l) (v : α) (hsorted : ValSorted l) (hempty : vs = 0 → l = [])
    (hcap1 : ∀ m, l = [⟨m, 1, 0⟩] → cap ≤ 1) :
    QList (v ::ₘ vs) (insertSamples cap v l) := by
  by_cases hvs : vs = 0
  · have hl := hempty hvs
    subst hl
    refine ⟨?_, ?_, ?_⟩
    · intro x hx
      simp [insertSamples, Sample.exact] at hx
      simp [hx]
    · intro _
      refine ⟨v, [], rfl, ?_⟩
      intro x hx
      rw [hvs] at hx
      simp at hx
      rw [hx]
    · intro _
      refine ⟨⟨v, 1, 0⟩, by simp [insertSamples, Sample.exact], ?_⟩
      intro y hy
      rw [hvs] at hy
      simp at hy
      rw [hy]
  · obtain ⟨m, t, hl, hmin⟩ := h.head hvs
    obtain ⟨xold, hxold, hmax⟩ := h.last hvs
    refine ⟨?_, ?_, ?_⟩
    · intro x hx
      rcases insertSamples_value_mem cap v l x hx with h1 | ⟨y, hy, h1⟩
      · rw [h1]; simp
      · have := h.valmem y hy
        rw [h1]
        simp [this]
    · intro _
      by_cases hvm : v < m
      · rw [hl]
        obtain ⟨r, hr⟩ := @insertSamples_head_lt _ _ cap _ _ t hvm
        refine ⟨v, r, hr, ?_⟩
        intro x hx
        rcases Multiset.mem_cons.mp hx with h1 | h1
        · rw [h1]
        · exact le_trans (le_of_lt hvm) (hmin x h1)
      · rw [hl]
        have hc : t = [] → cap ≤ 1 := fun ht => hcap1 m (by rw [hl, ht])
        obtain ⟨r, hr⟩ := insertSamples_head_ge hvm hc
        refine ⟨m, r, hr, ?_⟩
        intro x hx
        rcases Multiset.mem_cons.mp hx with h1 | h1
        · rw [h1]; exact le_of_not_lt hvm
        · exact hmin x h1
    · intro _
      obtain ⟨x, y, hx, hy, hcase⟩ := @insertSamples_getLast _ _ cap v _
        hsorted (by rw [hl]; simp)
      have hyx : y = xold := by
        rw [hy] at hxold
        injection hxold
      refine ⟨x, hx, ?_⟩
      intro z hz
      rcases Multiset.mem_cons.mp hz with h1 | h1
      · rcases hcase with ⟨he, hv2⟩ | ⟨he, hv2⟩
        · rw [h1, he]; exact hv2
        · rw [h1, he]
      · rcases hcase with ⟨he, hv2⟩ | ⟨he, hv2⟩
        · rw [he, hyx]
          exact hmax z h1
        · rw [he]
          refine le_trans (hmax z h1) ?_
          rw [← hyx]
          exact hv2

lemma QList.merge_pres {vsa vsb : Multiset α} {a b : List (Sample α)}
    (ha : QList vsa a) (hb : QList vsb b)
    (hea : vsa = 0 → a = []) (heb : vsb = 0 → b = [])
    (hsa : ValSorted a) (hsb : ValSorted b) :
    QList (vsa + vsb) (mergePushes a b) := by
  by_cases hva : vsa = 0
  · have h0 := hea hva
    rw [h0, mergePushes, hva, zero_add]
    exact hb
  by_cases hvb : vsb = 0
  · have h0 := heb hvb
    rw [h0, mergePushes_nil_right, hvb, add_zero]
    exact ha
  obtain ⟨ma, ta, hla, hmina⟩ := ha.head hva
  obtain ⟨mb, tb, hlb, hminb⟩ := hb.head hvb
  obtain ⟨xa, hxa, hmaxa⟩ := ha.last hva
  obtain ⟨xb, hxb, hmaxb⟩ := hb.last hvb
  have hval : ∀ x ∈ mergePushes a b, x.value ∈ vsa + vsb := by
    intro x hx
    rcases mergePushes_value_mem a b x hx with ⟨y, hy, hv⟩ | ⟨y, hy, hv⟩
    · rw [hv]
      exact Multiset.mem_add.mpr (Or.inl (ha.valmem y hy))
    · rw [hv]
      exact Multiset.mem_add.mpr (Or.inr (hb.valmem y hy))
  refine ⟨hval, ?_, ?_⟩
  · intro _
    by_cases hab : ma < mb
    · obtain ⟨r, hr⟩ := (mergePushes_head_exact ma mb ta tb).1 hab
      rw [hla, hlb]
      refine ⟨ma, r, hr, ?_⟩
      intro x hx
      rcases Multiset.mem_add.mp hx with h1 | h1
      · exact hmina x h1
      · exact le_trans (le_of_lt hab) (hminb x h1)
    · obtain ⟨r, hr⟩ := (mergePushes_head_exact ma mb ta tb).2 hab
      rw [hla, hlb]
      refine ⟨mb, r, hr, ?_⟩
      intro x hx
      rcases Multiset.mem_add.mp hx with h1 | h1
      · exact le_trans (le_of_not_lt hab) (hmina x h1)
      · exact hminb x h1
  · intro _
    have hnil : mergePushes a b ≠ [] :=
      mergePushes_ne_nil (Or.inl (by rw [hla]; simp))
    obtain ⟨x, hx⟩ := getLast?_isSome_of_ne_nil hnil
    have hsorted := mergePushes_sorted a b hsa hsb
    have hle := sorted_le_last hsorted x hx
    refine ⟨x, hx, ?_⟩
    intro z hz
    rcases Multiset.mem_add.mp hz with h1 | h1
    · have hmem : xa ∈ a := mem_of_getLast?_eq hxa
      obtain ⟨w, hw, hwv⟩ := mergePushes_covers a b xa (List.mem_append.mpr (Or.inl hmem))
      calc z ≤ xa.value := hmaxa z h1
        _ = w.value := hwv.symm
        _ ≤ x.value := hle w hw
    · have hmem : xb ∈ b := mem_of_getLast?_eq hxb
      obtain ⟨w, hw, hwv⟩ := mergePushes_covers a b xb (List.mem_append.mpr (Or.inr hmem))
      calc z ≤ xb.value := hmaxb z h1
        _ = w.value := hwv.symm
        _ ≤ x.value := hle w hw

lemma qlist_reachable {vs : Multiset α} {s : Summary α} (h : Reachable vs s) :
    s.maxExpectedError < 1/2 → QList vs s.samples := by
  induction h with
  | new eps h0 h1 =>
    intro _
    exact ⟨by simp [Summary.new], fun hv => absurd rfl hv, fun hv => absurd rfl hv⟩
  | insertOne hr v ih =>
    rename_i vs1 s1
    intro heps
    have heps1 : s1.maxExpectedError < 1/2 := by
      rw [insertOne_eps] at heps
      exact heps
    have hQ := ih heps1
    have hS := sinv_reachable hr
    have hcap1 : ∀ m, s1.samples = [⟨m, 1, 0⟩] →
        capAt s1.maxExpectedError (s1.len + 1) ≤ 1 := by
      intro m hm
      have hsum := hS.sumg
      rw [hm] at hsum
      simp [sumG] at hsum
      rw [show s1.len + 1 = 2 by omega]
      exact capAt_two_le_one hS.epos.le heps1
    have hins := hQ.insertSamples_pres v hS.sorted (reachable_empty hr) hcap1
    rcases insertOne_samples s1 v with hcase | hcase
    · rw [hcase]
      exact hins
    · rw [hcase]
      exact hins.compressRec_pres _
  | compress hr ih =>
    intro heps
    have hQ := ih (by rw [compress_eps] at heps; exact heps)
    rw [compress_samples_eq]
    exact hQ.compressRec_pres _
  | merge hr hr2 hepsle ih ih2 =>
    rename_i vs1 ws1 s1 t1
    intro heps
    have hseps : s1.maxExpectedError < 1/2 := heps
    have hteps : t1.maxExpectedError < 1/2 := lt_of_le_of_lt hepsle hseps
    have hQs := ih hseps
    have hQt := ih2 hteps
    rw [mergeSorted_samples_eq]
    exact ((hQs.merge_pres hQt (reachable_empty hr) (reachable_empty hr2)
      (sinv_reachable hr).sorted (sinv_reachable hr2).sorted)).compressRec_pres _

/-! ### The query layer: first-minimum fold and the error list -/

lemma foldl_min_zero (l : List (Sample α × ℕ)) :
    ∀ x : Sample α × ℕ, x.2 = 0 →
      l.foldl (fun best y => if y.2 < best.2 then y else best) x = x := by
  induction l with
  | nil => intro x _; rfl
  | cons y t ih =>
    intro x hx
    rw [List.foldl_cons, show (if y.2 < x.2 then y else x) = x by rw [hx]; simp]
    exact ih x hx

lemma minByErr_head_zero {x : Sample α × ℕ} (hx : x.2 = 0)
    (rest : List (Sample α × ℕ)) : minByErrFirst (x :: rest) = some x := by
  rw [minByErrFirst, foldl_min_zero rest x hx]

lemma foldl_min_last {w : Sample α × ℕ} (hw : w.2 = 0) :
    ∀ (pre : List (Sample α × ℕ)) (x : Sample α × ℕ), 1 ≤ x.2 →
      (∀ y ∈ pre, 1 ≤ y.2) →
      (pre ++ [w]).foldl (fun best y => if y.2 < best.2 then y else best) x = w := by
  intro pre
  induction pre with
  | nil =>
    intro x hx _
    simp only [List.nil_append, List.foldl_cons, List.foldl_nil]
    rw [if_pos (by omega)]
  | cons y t ih =>
    intro x hx hall
    rw [List.cons_append, List.foldl_cons]
    have h1 : 1 ≤ y.2 := hall y (by simp)
    have h2 : 1 ≤ (if y.2 < x.2 then y else x).2 := by split <;> omega
    exact ih _ h2 (fun z hz => hall z (by simp [hz]))

lemma minByErr_last {pre : List (Sample α × ℕ)} {w : Sample α × ℕ}
    (hw : w.2 = 0) (hall : ∀ y ∈ pre, 1 ≤ y.2) :
    minByErrFirst (pre ++ [w]) = some w := by
  cases pre with
  | nil => rfl
  | cons x t =>
    rw [List.cons_append, minByErrFirst,
      foldl_min_last hw t x (hall x (by simp)) (fun z hz => hall z (by simp [hz]))]

lemma rankErrors_last_zero {l : List (Sample α)} (hg : ∀ x ∈ l, 1 ≤ x.g)
    (hl : LastD0 l) :
    ∀ m, l ≠ [] → ∃ pre w, rankErrorsFrom (m + sumG l) m l = pre ++ [w] ∧
      (∀ y ∈ pre, 1 ≤ y.2) ∧ w.2 = 0 ∧ l.getLast? = some w.1 := by
  induction l with
  | nil => intro m h; exact absurd rfl h
  | cons s rest ih =>
    intro m _
    cases rest with
    | nil =>
      have hd : s.delta = 0 := hl s (by simp)
      simp only [rankErrorsFrom]
      refine ⟨[], _, rfl, by simp, ?_, by simp⟩
      simp only [sumG, List.map_cons, List.map_nil, List.sum_cons, List.sum_nil]
      split <;> omega
    | cons s2 rest2 =>
      have hR : 1 ≤ sumG (s2 :: rest2) := by
        have := hg s2 (by simp)
        simp only [sumG, List.map_cons, List.sum_cons]
        omega
      have hsum : m + sumG (s :: s2 :: rest2) = m + s.g + sumG (s2 :: rest2) := by
        simp only [sumG, List.map_cons, List.sum_cons]
        omega
      obtain ⟨pre, w, heq, hpre, hw, hlast⟩ := ih (fun x hx => hg x (by simp [hx]))
        (lastd_tail hl) (m + s.g) (by simp)
      rw [hsum]
      simp only [rankErrorsFrom]
      refine ⟨(s, if (m + s.g + (m + s.g + s.delta)) / 2 <
          m + s.g + sumG (s2 :: rest2)
        then m + s.g + sumG (s2 :: rest2) - (m + s.g)
        else m + s.g + s.delta - (m + s.g + sumG (s2 :: rest2))) :: pre, w,
        ?_, ?_, hw, ?_⟩
      · rw [List.cons_append, ← heq]
        simp only [rankErrorsFrom]
      · intro y hy
        rcases List.mem_cons.mp hy with h1 | h1
        · rw [h1]
          simp only
          split <;> omega
        · exact hpre y h1
      · rw [List.getLast?_cons_cons]
        exact hlast

lemma query_zero {s : Summary α} {m : α} {t : List (Sample α)}
    (hl : s.samples = ⟨m, 1, 0⟩ :: t) : s.query 0 = .ok (some m) := by
  simp only [Summary.query, Summary.queryWithError, rank_q0]
  rw [hl,
    show (rankErrorsFrom 1 0 (⟨m, 1, 0⟩ :: t) : List (Sample α × ℕ)) =
      (⟨m, 1, 0⟩, 0) :: rankErrorsFrom 1 1 t from by rw [rankErrorsFrom]; norm_num,
    minByErr_head_zero rfl (rankErrorsFrom 1 1 t)]
  simp [Except.map]

lemma query_one {s : Summary α} (hlen : 1 ≤ s.len)
    (hsum : sumG s.samples = s.len) (hg : ∀ x ∈ s.samples, 1 ≤ x.g)
    (hld : LastD0 s.samples) (hne : s.samples ≠ [])
    {x : Sample α} (hx : s.samples.getLast? = some x) :
    s.query 1 = .ok (some x.value) := by
  obtain ⟨pre, w, heq, hpre, hw, hlast⟩ := rankErrors_last_zero hg hld 0 hne
  have htar : max s.len 1 = 0 + sumG s.samples := by omega
  simp only [Summary.query, Summary.queryWithError, rank_q1]
  rw [htar, heq, minByErr_last hw hpre]
  have hwx : w.1 = x := by
    rw [hlast] at hx
    injection hx
  simp [Except.map, hwx]

lemma rankErrors_length (target : ℕ) (l : List (Sample α)) :
    ∀ m, (rankErrorsFrom target m l).length = l.length := by
  induction l with
  | nil => intro m; simp [rankErrorsFrom]
  | cons s rest ih => intro m; simp [rankErrorsFrom, ih]

lemma rankErrors_getElem? (l : List (Sample α)) :
    ∀ target m i, (rankErrorsFrom target m l)[i]? = (l[i]?).map (fun x =>
      (x, if (m + sumG (l.take (i + 1)) + (m + sumG (l.take (i + 1)) + x.delta)) / 2
            < target
          then target - (m + sumG (l.take (i + 1)))
          else m + sumG (l.take (i + 1)) + x.delta - target)) := by
  induction l with
  | nil => intro target m i; simp [rankErrorsFrom]
  | cons s rest ih =>
    intro target m i
    cases i with
    | zero =>
      simp only [rankErrorsFrom, List.getElem?_cons_zero, List.take_succ_cons,
        List.take_zero, sumG, List.map_cons, List.map_nil, List.sum_cons,
        List.sum_nil]
      norm_num
    | succ i =>
      simp only [rankErrorsFrom, List.getElem?_cons_succ, List.take_succ_cons]
      rw [ih]
      simp only [sumG, List.map_cons, List.sum_cons]
      norm_num [Nat.add_assoc]

lemma foldl_min_first (l : List (Sample α × ℕ)) :
    ∀ x : Sample α × ℕ,
      ∃ l1 l2,
        x :: l = l1 ++ (l.foldl (fun best y => if y.2 < best.2 then y else best) x) :: l2 ∧
        (∀ y ∈ l1, (l.foldl (fun best y => if y.2 < best.2 then y else best) x).2 < y.2) ∧
        ∀ y ∈ x :: l, (l.foldl (fun best y => if y.2 < best.2 then y else best) x).2 ≤ y.2 := by
  induction l with
  | nil =>
    intro x
    exact ⟨[], [], rfl, by simp, by simp⟩
  | cons y t ih =>
    intro x
    simp only [List.foldl_cons]
    by_cases hc : y.2 < x.2
    · simp only [if_pos hc]
      obtain ⟨l1, l2, heq, hgt, hmin⟩ := ih y
      refine ⟨x :: l1, l2, ?_, ?_, ?_⟩
      · rw [List.cons_append, ← heq]
      · intro z hz
        rcases List.mem_cons.mp hz with h1 | h1
        · rw [h1]
          exact lt_of_le_of_lt (hmin y (by simp)) hc
        · exact hgt z h1
      · intro z hz
        rcases List.mem_cons.mp hz with h1 | h1
        · rw [h1]
          exact le_of_lt (lt_of_le_of_lt (hmin y (by simp)) hc)
        · exact hmin z h1
    · simp only [if_neg hc]
      obtain ⟨l1, l2, heq, hgt, hmin⟩ := ih x
      cases l1 with
      | nil =>
        simp only [List.nil_append, List.cons.injEq] at heq
        obtain ⟨h1, h2⟩ := heq
        refine ⟨[], y :: t, ?_, by simp, ?_⟩
        · simp [← h1, ← h2]
        · intro z hz
          rcases List.mem_cons.mp hz with hz1 | hz1
          · rw [hz1, ← h1]
          · rcases List.mem_cons.mp hz1 with hz2 | hz2
            · rw [hz2, ← h1]
              omega
            · exact hmin z (by simp [hz2])
      | cons a l1' =>
        rw [List.cons_append] at heq
        simp only [List.cons.injEq] at heq
        obtain ⟨h1, h2⟩ := heq
        refine ⟨x :: y :: l1', l2, ?_, ?_, ?_⟩
        · conv_lhs => rw [h2]
          rfl
        · intro z hz
          rcases List.mem_cons.mp hz with hz1 | hz1
          · rw [hz1]
            have h3 := hgt a (by simp)
            rw [← h1] at h3
            exact h3
          · rcases List.mem_cons.mp hz1 with hz2 | hz2
            · rw [hz2]
              have h3 := hgt a (by simp)
              rw [← h1] at h3
              omega
            · exact hgt z (by simp [hz2])
        · intro z hz
          rcases List.mem_cons.mp hz with hz1 | hz1
          · rw [hz1]
            exact hmin x (by simp)
          · rcases List.mem_cons.mp hz1 with hz2 | hz2
            · rw [hz2]
              have h3 := hgt a (by simp)
              rw [← h1] at h3
              omega
            · exact hmin z (by simp [hz2])

lemma minByErrFirst_spec {l : List (Sample α × ℕ)} (hne : l ≠ []) :
    ∃ w l1 l2, minByErrFirst l = some w ∧ l = l1 ++ w :: l2 ∧
      (∀ y ∈ l1, w.2 < y.2) ∧ ∀ y ∈ l, w.2 ≤ y.2 := by
  cases l with
  | nil => exact absurd rfl hne
  | cons x t =>
    obtain ⟨l1, l2, heq, hgt, hmin⟩ := foldl_min_first t x
    exact ⟨_, l1, l2, rfl, heq, hgt, hmin⟩

lemma rankErrors_spec (target : ℕ) (l : List (Sample α)) (i : ℕ) {x : Sample α}
    (hx : l[i]? = some x) :
    (rankErrorsFrom target 0 l)[i]? = some (x, specErr target l i) := by
  rw [rankErrors_getElem?, hx]
  simp only [Option.map_some', specErr, specMinRank, specMaxRank, specDelta, hx,
    Option.getD_some]
  norm_num

/-! ### Concrete states for the claim instances -/

private lemma testSummary_reachable :
    Reachable (7 ::ₘ 1 ::ₘ 5 ::ₘ 2 ::ₘ 9 ::ₘ 3 ::ₘ 4 ::ₘ 0 ::ₘ 6 ::ₘ 8 ::ₘ
      (0 : Multiset ℤ)) testSummary :=
  .insertOne (.insertOne (.insertOne (.insertOne (.insertOne (.insertOne
    (.insertOne (.insertOne (.insertOne (.insertOne (.new eps15
      (by norm_num [eps15]) (by norm_num [eps15])) 8) 6) 0) 4) 3) 9) 2) 5) 1) 7

private lemma c1state_reachable :
    Reachable (5 ::ₘ 10 ::ₘ 0 ::ₘ (0 : Multiset ℤ)) c1state :=
  .insertOne (.insertOne (.insertOne (.new eps110
    (by norm_num [eps110]) (by norm_num [eps110])) 0) 10) 5

private lemma c7state_reachable :
    Reachable (20 ::ₘ 10 ::ₘ (0 : Multiset ℤ)) c7state :=
  .insertOne (.insertOne (.new eps12
    (by norm_num [eps12]) (by norm_num [eps12])) 10) 20

private lemma c1state_eq : c1state =
    { samples := [⟨0,1,0⟩, ⟨5,1,0⟩, ⟨10,1,0⟩]
      maxSamples := 50, maxExpectedError := eps110, len := 3 } := by
  simp [c1state, Summary.insertOne, new_eps110, Summary.maxGDelta,
    insertSamples, insertGo, Sample.exact, cap_eps110_1, cap_eps110_2,
    cap_eps110_3]

private lemma c7state_eq : c7state =
    { samples := [⟨20,2,0⟩]
      maxSamples := 10, maxExpectedError := eps12, len := 2 } := by
  simp [c7state, Summary.insertOne, new_eps12, Summary.maxGDelta,
    insertSamples, insertGo, Sample.exact, cap_eps12_1, cap_eps12_2]

private lemma testSummary_query_q310 : testSummary.query q310 = .ok (some 2) := by
  simp [testSummary_eq, Summary.query, Summary.queryWithError, rank_q310_10,
    rankErrorsFrom, minByErrFirst, Except.map]

private lemma c9merged_samples : (testSummary.mergeSortedSamples [] 0).samples =
    [⟨0,1,0⟩, ⟨4,4,0⟩, ⟨6,2,0⟩, ⟨9,3,0⟩] := by
  rw [mergeSorted_samples_eq, mergePushes_nil_right]
  simp only [testSummary_eq]
  norm_num [cap_eps15_10]
  decide

private lemma c9merged_eq : testSummary.mergeSortedSamples [] 0 =
    { samples := [⟨0,1,0⟩, ⟨4,4,0⟩, ⟨6,2,0⟩, ⟨9,3,0⟩]
      maxSamples := 25, maxExpectedError := eps15, len := 10 } := by
  rw [show testSummary.mergeSortedSamples [] 0 =
    Summary.mk (testSummary.mergeSortedSamples [] 0).samples
      testSummary.maxSamples testSummary.maxExpectedError (testSummary.len + 0)
    from rfl]
  rw [c9merged_samples]
  simp [testSummary_eq]

private lemma c9merged_query :
    (testSummary.mergeSortedSamples [] 0).query q310 = .ok (some 0) := by
  rw [c9merged_eq]
  simp [Summary.query, Summary.queryWithError, rank_q310_10, rankErrorsFrom,
    minByErrFirst, Except.map]

private lemma c7state_query : c7state.query 0 = .ok (some 20) := by
  rw [c7state_eq]
  simp [Summary.query, Summary.queryWithError, rank_q0, rankErrorsFrom,
    minByErrFirst, Except.map]

/-! ### The Intermediate insertion branch as a list splitting -/

lemma insertGo_split {cap : ℕ} {v : α} {r : Sample α} {l2 : List (Sample α)} :
    ∀ l1 : List (Sample α), l1 ≠ [] → (∀ x ∈ l1, ¬ v < x.value) → v < r.value →
      insertGo cap v (l1 ++ r :: l2) =
        if r.delta + r.g + 1 ≤ cap then l1 ++ { r with g := r.g + 1 } :: l2
        else l1 ++ ⟨v, 1, r.g + r.delta - 1⟩ :: r :: l2 := by
  intro l1
  induction l1 with
  | nil => intro h; exact absurd rfl h
  | cons m l1' ih =>
    intro _ hle hv
    simp only [List.cons_append]
    cases l1' with
    | nil =>
      simp only [List.nil_append]
      rw [insertGo, if_neg (hle m (by simp))]
      cases l2 with
      | nil =>
        rw [insertGo, if_pos hv]
        by_cases hC : r.delta + r.g + 1 ≤ cap
        · rw [if_pos hC, if_pos hC]
        · rw [if_neg hC, if_neg hC]
      | cons u l2' =>
        rw [insertGo, if_pos hv]
        by_cases hC : r.delta + r.g + 1 ≤ cap
        · rw [if_pos hC, if_pos hC]
        · rw [if_neg hC, if_neg hC]
    | cons m2 l1'' =>
      simp only [List.cons_append]
      rw [insertGo, if_neg (hle m (by simp)), ← List.cons_append,
        ih (by simp) (fun x hx => hle x (by simp [hx])) hv]
      by_cases hC : r.delta + r.g + 1 ≤ cap
      · rw [if_pos hC, if_pos hC]
        rfl
      · rw [if_neg hC, if_neg hC]
        rfl

lemma insertOne_samples_no_compress (s : Summary α) (v : α)
    (h : (insertSamples (capAt s.maxExpectedError (s.len + 1)) v s.samples).length
      ≤ s.maxSamples) :
    (s.insertOne v).samples =
      insertSamples (capAt s.maxExpectedError (s.len + 1)) v s.samples := by
  simp only [Summary.insertOne]
  split
  · rename_i hcond
    exfalso
    simp only [Summary.maxGDelta] at hcond
    omega
  · rfl

lemma mem_of_getElem?_eq {β : Type} {l : List β} {i : ℕ} {a : β}
    (h : l[i]? = some a) : a ∈ l := by
  induction l generalizing i with
  | nil => simp at h
  | cons x t ih =>
    cases i with
    | zero =>
      simp at h
      simp [h]
    | succ i =>
      rw [List.getElem?_cons_succ] at h
      exact List.mem_cons_of_mem _ (ih h)

/-! ## The claims -/

/-- C1 (counterexample): at `ε = 1/10`, after inserting `0, 10, 5` the summary
is reachable, holds three samples, and its middle (non-extreme) sample has
`g + delta = 1` while `⌊2·ε·len⌋ = 0`, refuting the claimed bound
`g + delta ≤ ⌊2·ε·len⌋` for non-extreme samples. -/
theorem claim_C1_counterexample :
    Reachable (5 ::ₘ 10 ::ₘ 0 ::ₘ (0 : Multiset ℤ)) c1state ∧
    c1state.samples.length = 3 ∧
    ∃ x, c1state.samples[1]? = some x ∧
      capAt c1state.maxExpectedError c1state.len < x.g + x.delta := by
  refine ⟨c1state_reachable, ?_, ⟨5, 1, 0⟩, ?_, ?_⟩
  · simp [c1state_eq]
  · simp [c1state_eq]
  · simp [c1state_eq, cap_eps110_3]

/-- C1 (amended): on every reachable summary every sample (extreme or not)
satisfies `g + delta ≤ max 1 ⌊2·ε·len⌋`; the claimed bound `⌊2·ε·len⌋` alone
fails at small `len` (see the counterexample), the extra `max 1` is what
insertion, compression and merging actually maintain. -/
theorem claim_C1 {α : Type} [LinearOrder α] (vs : Multiset α) (s : Summary α)
    (h : Reachable vs s) :
    ∀ x ∈ s.samples, x.g + x.delta ≤ max 1 (capAt s.maxExpectedError s.len) :=
  (sinv_reachable h).bound

/-- C1 (witness): the amended bound applied to the reachable state `c1state`
at its middle sample. -/
theorem claim_C1_witness :
    (Sample.mk (5 : ℤ) 1 0).g + (Sample.mk (5 : ℤ) 1 0).delta ≤
      max 1 (capAt c1state.maxExpectedError c1state.len) :=
  claim_C1 _ c1state c1state_reachable ⟨5, 1, 0⟩ (by rw [c1state_eq]; simp)

/-- C2: on every reachable summary `Σ gᵢ = len`; moreover
`merge_sorted_samples` with an operand representing `other_len` values adds
exactly `other_len` to `len` and preserves the equality. -/
theorem claim_C2 {α : Type} [LinearOrder α] :
    (∀ (vs : Multiset α) (s : Summary α), Reachable vs s →
      sumG s.samples = s.len) ∧
    (∀ (s : Summary α) (osamples : List (Sample α)) (olen : ℕ),
      (s.mergeSortedSamples osamples olen).len = s.len + olen ∧
      (sumG s.samples = s.len → sumG osamples = olen →
        sumG (s.mergeSortedSamples osamples olen).samples =
          (s.mergeSortedSamples osamples olen).len)) := by
  constructor
  · intro vs s h
    exact (sinv_reachable h).sumg
  · intro s osamples olen
    refine ⟨rfl, ?_⟩
    intro h1 h2
    rw [mergeSorted_samples_eq, sumG_compressRec, sumG_mergePushes, h1, h2]
    rfl

/-- C3: on a non-empty summary and `q ∈ [0,1]`, `query_with_error` returns the
value of the sample whose spec-side rank error (`min_rank` the running sum of
`g`, `max_rank = min_rank + delta`, `mid` their integer average, `err` as the
spec computes it) is minimal, ties broken by the first such sample, paired
with `err / len`. -/
theorem claim_C3 {α : Type} [LinearOrder α] (s : Summary α) (q : ℚ)
    (hne : s.samples ≠ []) (h0 : 0 ≤ q) (h1 : q ≤ 1) :
    ∃ target i, quantileToRank q s.len = .ok target ∧ i < s.samples.length ∧
      (∀ j, j < s.samples.length →
        specErr target s.samples i ≤ specErr target s.samples j) ∧
      (∀ j, j < i → specErr target s.samples i < specErr target s.samples j) ∧
      ∃ x, s.samples[i]? = some x ∧
        s.queryWithError q = .ok (some (x.value,
          (specErr target s.samples i : ℚ) / s.len)) := by
  have hqr : quantileToRank q s.len = .ok (max ⌈q * (s.len : ℚ)⌉.toNat 1) := by
    rw [quantileToRank, if_pos ⟨h0, h1⟩]
  set target := max ⌈q * (s.len : ℚ)⌉.toNat 1 with htar
  have hlen := rankErrors_length target s.samples 0
  have herrs_ne : rankErrorsFrom target 0 s.samples ≠ [] := by
    intro hcon
    rw [hcon] at hlen
    simp at hlen
    exact hne (List.length_eq_zero.mp hlen.symm)
  obtain ⟨w, l1, l2, hmin, heq, hgt, hminall⟩ := minByErrFirst_spec herrs_ne
  have hil : l1.length < s.samples.length := by
    rw [heq] at hlen
    simp at hlen
    omega
  obtain ⟨x, hx⟩ : ∃ x, s.samples[l1.length]? = some x :=
    ⟨s.samples[l1.length], List.getElem?_eq_getElem hil⟩
  have hentry := rankErrors_spec target s.samples l1.length hx
  have hwi : w = (x, specErr target s.samples l1.length) := by
    rw [heq, List.getElem?_append_right (le_refl l1.length)] at hentry
    simp at hentry
    exact hentry
  refine ⟨target, l1.length, hqr, hil, ?_, ?_, x, hx, ?_⟩
  · intro j hj
    obtain ⟨y, hy⟩ : ∃ y, s.samples[j]? = some y :=
      ⟨s.samples[j], List.getElem?_eq_getElem hj⟩
    have hj2 := rankErrors_spec target s.samples j hy
    have hmem : (y, specErr target s.samples j) ∈
        rankErrorsFrom target 0 s.samples := mem_of_getElem?_eq hj2
    have h5 := hminall _ hmem
    rw [hwi] at h5
    simpa using h5
  · intro j hj
    obtain ⟨y, hy⟩ : ∃ y, s.samples[j]? = some y :=
      ⟨s.samples[j], List.getElem?_eq_getElem (lt_trans hj hil)⟩
    have hj2 := rankErrors_spec target s.samples j hy
    rw [heq, List.getElem?_append, if_pos hj] at hj2
    have hmem : (y, specErr target s.samples j) ∈ l1 := mem_of_getElem?_eq hj2
    have h5 := hgt _ hmem
    rw [hwi] at h5
    simpa using h5
  · simp only [Summary.queryWithError, hqr]
    rw [hmin, hwi]
    simp

/-- C3 (witness): the characterisation applied to the ten-insert test state
at `q = 3/10`. -/
theorem claim_C3_witness :
    ∃ target i, quantileToRank q310 testSummary.len = .ok target ∧
      i < testSummary.samples.length ∧
      (∀ j, j < testSummary.samples.length →
        specErr target testSummary.samples i ≤ specErr target testSummary.samples j) ∧
      (∀ j, j < i →
        specErr target testSummary.samples i < specErr target testSummary.samples j) ∧
      ∃ x, testSummary.samples[i]? = some x ∧
        testSummary.queryWithError q310 = .ok (some (x.value,
          (specErr target testSummary.samples i : ℚ) / testSummary.len)) :=
  claim_C3 testSummary q310 (by rw [testSummary_eq]; simp)
    (by norm_num [q310]) (by norm_num [q310])

/-- C4: the streaming compressor, pushed a sample sequence and finished, is
exactly the recursive commit/absorb transition system the spec describes
(`compressRec`), and the first pushed sample is emitted unchanged as the
output head. -/
theorem claim_C4 {α : Type} [LinearOrder α] :
    (∀ (cap : ℕ) (l : List (Sample α)),
      compressSamples cap l = compressRec cap l) ∧
    (∀ (cap : ℕ) (x : Sample α) (l : List (Sample α)),
      ∃ rest, compressSamples cap (x :: l) = x :: rest) := by
  refine ⟨fun cap l => compressSamples_eq_compressRec cap l, fun cap x l => ?_⟩
  rw [compressSamples_eq_compressRec]
  exact compressRec_cons_head cap x l

/-- C5: inserting a value strictly between the current minimum and maximum,
with `r` the leftmost stored sample greater than it and `cap` computed at the
incremented length: when `r.delta + r.g + 1 ≤ cap` only `r.g` is incremented,
otherwise `⟨value, 1, r.g + r.delta − 1⟩` is inserted immediately left of
`r`. -/
theorem claim_C5 {α : Type} [LinearOrder α] (s : Summary α) (v : α)
    (l1 : List (Sample α)) (r : Sample α) (l2 : List (Sample α))
    (hdec : s.samples = l1 ++ r :: l2) (hne : l1 ≠ [])
    (hle : ∀ x ∈ l1, ¬ v < x.value) (hv : v < r.value)
    (hroom : s.samples.length < s.maxSamples) :
    (s.insertOne v).samples =
      if r.delta + r.g + 1 ≤ capAt s.maxExpectedError (s.len + 1)
      then l1 ++ { r with g := r.g + 1 } :: l2
      else l1 ++ ⟨v, 1, r.g + r.delta - 1⟩ :: r :: l2 := by
  have hins : insertSamples (capAt s.maxExpectedError (s.len + 1)) v s.samples =
      if r.delta + r.g + 1 ≤ capAt s.maxExpectedError (s.len + 1)
      then l1 ++ { r with g := r.g + 1 } :: l2
      else l1 ++ ⟨v, 1, r.g + r.delta - 1⟩ :: r :: l2 := by
    cases l1 with
    | nil => exact absurd rfl hne
    | cons m l1' =>
      rw [hdec, List.cons_append]
      cases hrest : l1' ++ r :: l2 with
      | nil => simp at hrest
      | cons a rest2 =>
        rw [insertSamples, if_neg (hle m (by simp)), ← hrest,
          ← List.cons_append]
        exact insertGo_split (m :: l1') (by simp) hle hv
  have hlen : (insertSamples (capAt s.maxExpectedError (s.len + 1)) v
      s.samples).length ≤ s.maxSamples := by
    rw [hins]
    rw [hdec] at hroom
    simp only [List.length_append, List.length_cons] at hroom
    split <;> simp only [List.length_append, List.length_cons] <;> omega
  rw [insertOne_samples_no_compress s v hlen]
  exact hins

/-- C5 (witness): inserting `5` between `0` and `10` at `ε = 1/5`, `len`
becoming 3 (`cap = 1`): the micro-compression does not apply and the new
sample lands left of `r = ⟨10,1,0⟩`. -/
theorem claim_C5_witness :
    ((Summary.mk [⟨(0 : ℤ), 1, 0⟩, ⟨10, 1, 0⟩] 25 eps15 2).insertOne 5).samples =
      [⟨0, 1, 0⟩, ⟨5, 1, 0⟩, ⟨10, 1, 0⟩] := by
  have h := claim_C5 (Summary.mk [⟨(0 : ℤ), 1, 0⟩, ⟨10, 1, 0⟩] 25 eps15 2) 5
    [⟨0, 1, 0⟩] ⟨10, 1, 0⟩ [] rfl (by simp) (by decide) (by decide) (by decide)
  rw [h, if_neg (by norm_num [cap_eps15_3])]
  rfl

/-- C6: compression is idempotent on every reachable summary, in sample
sequence and therefore in every query answer. -/
theorem claim_C6 {α : Type} [LinearOrder α] (vs : Multiset α) (s : Summary α)
    (h : Reachable vs s) :
    s.compress.compress = s.compress ∧
    ∀ q : ℚ, s.compress.compress.queryWithError q =
      s.compress.queryWithError q := by
  have hdom : DomCh s.samples := (sinv_reachable h).dom
  have hsamp : s.compress.compress.samples = s.compress.samples := by
    rw [compress_samples_eq, compress_samples_eq]
    exact compressRec_idem hdom
  have heq : s.compress.compress = s.compress := by
    have h2 : s.compress.compress = Summary.mk s.compress.compress.samples
      s.maxSamples s.maxExpectedError s.len := rfl
    have h3 : s.compress = Summary.mk s.compress.samples s.maxSamples
      s.maxExpectedError s.len := rfl
    rw [h2, hsamp, ← h3]
  exact ⟨heq, fun q => by rw [heq]⟩

/-- C6 (witness): idempotence at the ten-insert test state. -/
theorem claim_C6_witness :
    testSummary.compress.compress = testSummary.compress ∧
    ∀ q : ℚ, testSummary.compress.compress.queryWithError q =
      testSummary.compress.queryWithError q :=
  claim_C6 _ testSummary testSummary_reachable

/-- C7 (counterexample): at `ε = 1/2`, after inserting `10` then `20` the
state is reachable, `10` is the minimum inserted value, yet `query 0` returns
`20`: the Maximum micro-compression absorbed the minimum. -/
theorem claim_C7_counterexample :
    Reachable (20 ::ₘ 10 ::ₘ (0 : Multiset ℤ)) c7state ∧
    (10 : ℤ) ∈ (20 ::ₘ 10 ::ₘ (0 : Multiset ℤ)) ∧
    (∀ x ∈ (20 ::ₘ 10 ::ₘ (0 : Multiset ℤ)), (10 : ℤ) ≤ x) ∧
    c7state.query 0 = .ok (some 20) ∧ (20 : ℤ) ≠ 10 :=
  ⟨c7state_reachable, by decide, by decide, c7state_query, by decide⟩

/-- C7 (amended): with `ε < 1/2` — which the claim lacks — every reachable
summary holding at least one value answers `query 0` with the exact minimum
and `query 1` with the exact maximum of the inserted values. -/
theorem claim_C7 {α : Type} [LinearOrder α] (vs : Multiset α) (s : Summary α)
    (h : Reachable vs s) (heps : s.maxExpectedError < 1/2) (m M : α)
    (hm : m ∈ vs) (hmin : ∀ x ∈ vs, m ≤ x) (hM : M ∈ vs)
    (hmax : ∀ x ∈ vs, x ≤ M) :
    s.query 0 = .ok (some m) ∧ s.query 1 = .ok (some M) := by
  have hvs : vs ≠ 0 := by
    intro h0
    rw [h0] at hm
    simp at hm
  have hQ := qlist_reachable h heps
  have hS := sinv_reachable h
  obtain ⟨m0, t, hl, hmin0⟩ := hQ.head hvs
  have hm0 : m0 = m := by
    have h1 : m ≤ m0 := hmin m0 (hQ.valmem ⟨m0, 1, 0⟩ (by rw [hl]; simp))
    have h2 : m0 ≤ m := hmin0 m hm
    exact le_antisymm h2 h1
  constructor
  · rw [← hm0]
    exact query_zero hl
  · obtain ⟨x, hx, hmax0⟩ := hQ.last hvs
    have hxv : x.value = M := by
      have h1 : x.value ≤ M := hmax x.value (hQ.valmem x (mem_of_getLast?_eq hx))
      have h2 : M ≤ x.value := hmax0 M hM
      exact le_antisymm h1 h2
    have hlen : 1 ≤ s.len := by
      have hc := reachable_len h
      have hp : 0 < Multiset.card vs := Multiset.card_pos.mpr hvs
      omega
    rw [← hxv]
    exact query_one hlen hS.sumg hS.gpos hS.lastd (by rw [hl]; simp) hx

/-- C7 (witness): the exact extremes at the ten-insert test state
(`ε = 1/5 < 1/2`): `query 0 = 0` and `query 1 = 9`. -/
theorem claim_C7_witness :
    testSummary.query 0 = .ok (some 0) ∧ testSummary.query 1 = .ok (some 9) :=
  claim_C7 _ testSummary testSummary_reachable
    (by rw [testSummary_eq]; norm_num [eps15]) 0 9
    (by decide) (by decide) (by decide) (by decide)

/-- C8: `quantile_to_rank q N = max(1, ⌈q·N⌉)` on `q ∈ [0,1]`, the stated
rank table at `N = 4`, and the `InvalidQuantile` failure outside `[0,1]`. -/
theorem claim_C8 :
    (∀ (q : ℚ) (N : ℕ), 0 ≤ q → q ≤ 1 →
      quantileToRank q N = .ok (max ⌈q * (N : ℚ)⌉.toNat 1)) ∧
    (∀ (q : ℚ) (N : ℕ), ¬ (0 ≤ q ∧ q ≤ 1) →
      quantileToRank q N = .error .invalidQuantile) ∧
    (∀ q : ℚ, 0 ≤ q → q ≤ 1/4 → quantileToRank q 4 = .ok 1) ∧
    (∀ q : ℚ, 1/4 < q → q ≤ 2/4 → quantileToRank q 4 = .ok 2) ∧
    (∀ q : ℚ, 2/4 < q → q ≤ 3/4 → quantileToRank q 4 = .ok 3) ∧
    (∀ q : ℚ, 3/4 < q → q ≤ 1 → quantileToRank q 4 = .ok 4) := by
  refine ⟨?_, ?_, ?_, ?_, ?_, ?_⟩
  · intro q N h0 h1
    rw [quantileToRank, if_pos ⟨h0, h1⟩]
  · intro q N h
    rw [quantileToRank, if_neg h]
  · intro q h0 h1
    rw [quantileToRank, if_pos ⟨h0, by linarith⟩]
    have hc1 : ⌈q * ((4 : ℕ) : ℚ)⌉ ≤ 1 := by
      apply Int.ceil_le.mpr
      push_cast
      linarith
    congr 1
    omega
  · intro q h0 h1
    rw [quantileToRank, if_pos ⟨by linarith, by linarith⟩]
    have hc1 : ⌈q * ((4 : ℕ) : ℚ)⌉ ≤ 2 := by
      apply Int.ceil_le.mpr
      push_cast
      linarith
    have hc2 : 1 < ⌈q * ((4 : ℕ) : ℚ)⌉ := by
      apply Int.lt_ceil.mpr
      push_cast
      linarith
    congr 1
    omega
  · intro q h0 h1
    rw [quantileToRank, if_pos ⟨by linarith, by linarith⟩]
    have hc1 : ⌈q * ((4 : ℕ) : ℚ)⌉ ≤ 3 := by
      apply Int.ceil_le.mpr
      push_cast
      linarith
    have hc2 : 2 < ⌈q * ((4 : ℕ) : ℚ)⌉ := by
      apply Int.lt_ceil.mpr
      push_cast
      linarith
    congr 1
    omega
  · intro q h0 h1
    rw [quantileToRank, if_pos ⟨by linarith, h1⟩]
    have hc1 : ⌈q * ((4 : ℕ) : ℚ)⌉ ≤ 4 := by
      apply Int.ceil_le.mpr
      push_cast
      linarith
    have hc2 : 3 < ⌈q * ((4 : ℕ) : ℚ)⌉ := by
      apply Int.lt_ceil.mpr
      push_cast
      linarith
    congr 1
    omega

/-- C9 (counterexample): merging an EMPTY operand into the ten-insert test
state succeeds but is not answer-preserving: `query (3/10)` answers `2`
before the merge and `0` after it (the merge pass re-compresses the receiver
at the unchanged cap). -/
theorem claim_C9_counterexample :
    ∃ t, testSummary.merge (Summary.new eps15) = some t ∧
      testSummary.query q310 = .ok (some 2) ∧ t.query q310 = .ok (some 0) := by
  refine ⟨testSummary.mergeSortedSamples [] 0, ?_, testSummary_query_q310,
    c9merged_query⟩
  rw [Summary.merge,
    if_pos (show (Summary.new (α := ℤ) eps15).maxExpectedError ≤
      testSummary.maxExpectedError by rw [testSummary_eq]; exact le_refl _)]
  rfl

/-- C9 (amended): merging INTO an empty receiver (under the asserted `ε`
ordering) succeeds, adds the lengths and stores the operand's samples
compressed at the new cap; merging an empty operand succeeds but equals
`compress()`, not the identity — the second half of the claim ("leaves the
receiver's answers unchanged") fails, see the counterexample. -/
theorem claim_C9 {α : Type} [LinearOrder α] :
    (∀ s other : Summary α, s.samples = [] →
      other.maxExpectedError ≤ s.maxExpectedError →
      ∃ t, s.merge other = some t ∧ t.len = s.len + other.len ∧
        t.samples = compressSamples
          (capAt s.maxExpectedError (s.len + other.len)) other.samples) ∧
    (∀ s other : Summary α, other.samples = [] → other.len = 0 →
      other.maxExpectedError ≤ s.maxExpectedError →
      s.merge other = some s.compress) := by
  constructor
  · intro s other hs heps
    refine ⟨s.mergeSortedSamples other.samples other.len,
      by rw [Summary.merge, if_pos heps], rfl, ?_⟩
    rw [mergeSorted_samples_eq, hs, mergePushes, compressSamples_eq_compressRec]
  · intro s other ho hol heps
    rw [Summary.merge, if_pos heps, ho, hol]
    have hsamp : (s.mergeSortedSamples [] 0).samples = s.compress.samples := by
      rw [mergeSorted_samples_eq, mergePushes_nil_right, compress_samples_eq]
      rfl
    have h2 : s.mergeSortedSamples [] 0 =
        Summary.mk (s.mergeSortedSamples [] 0).samples s.maxSamples
          s.maxExpectedError s.len := rfl
    have h3 : s.compress = Summary.mk s.compress.samples s.maxSamples
      s.maxExpectedError s.len := rfl
    rw [h2, hsamp, ← h3]

/-- C10 (counterexample): two baseline summaries with EQUAL epsilons whose
merge still fails (`none`): both are empty, and the baseline `compress`
indexes `samples.len() - 1`, which panics on an empty summary.  Equal
epsilons are therefore not sufficient for the baseline merge to accept. -/
theorem claim_C10_counterexample :
    GK.gkMerge (GK.GKSummary.mk ([] : List (GK.GKSample ℤ)) eps110 0)
      (GK.GKSummary.mk ([] : List (GK.GKSample ℤ)) eps110 0) = none := by
  rw [GK.gkMerge, if_pos rfl]
  rfl

/-- C10 (amended): different epsilons always make the baseline merge panic
(no merge is performed), so equal epsilons are necessary — but not
sufficient, see the counterexample; the production merge by contrast accepts
any operand whose `ε` is at most the receiver's. -/
theorem claim_C10 {α : Type} [LinearOrder α] :
    (∀ s other : GK.GKSummary α, s.epsilon ≠ other.epsilon →
      GK.gkMerge s other = none) ∧
    (∀ s t : Summary α, t.maxExpectedError ≤ s.maxExpectedError →
      (s.merge t).isSome) := by
  constructor
  · intro s other h
    rw [GK.gkMerge, if_neg h]
  · intro s t h
    rw [Summary.merge, if_pos h]
    rfl

end FastQuantiles
